import Mathlib

/-!
Verification development for the workout planner (`workout_rs`).

The Rust sources are shallowly embedded: machine integers (`u32`, `usize`)
become `Nat` (no computation in the planner approaches the `u32` range),
fallible code returns `Except GymError`, and panics are modelled by an outer
`Option` (`none` = panic).  The `hashbrown`/`std` hash maps are modelled as
association lists together with explicit iteration-order parameters where the
source iterates over a map: a hash map determines its contents but not its
iteration order, so code whose result may depend on that order takes the
order as an argument (called `shuffle` below, mirroring a run's incidental
hash ordering).
-/

/-- `BarKind` from `bar_kind.rs`. -/
inductive BarKind where
  | Dumbbell
  | Barbell
deriving DecidableEq, Repr

/-- `BarKind::required_similar_plates` from `bar_kind.rs`. -/
def BarKind.required_similar_plates : BarKind → Nat
  | .Dumbbell => 4
  | .Barbell => 2

/-- `Plate` from `plate.rs`: weight (grams) and gauge. -/
structure Plate where
  weight : Nat
  gauge : Nat
deriving DecidableEq, Repr

/-- `impl Sum for Plate` from `plate.rs`: fold from `Plate::new(0, 0)` adding
weights and keeping the accumulator's gauge. -/
def Plate.sumPlates (l : List Plate) : Plate :=
  l.foldl (fun acc p => ⟨acc.weight + p.weight, acc.gauge⟩) ⟨0, 0⟩

/-- Modelled from the spec: `bar.rs` in this snapshot holds a stale `Bar`
with a `bar_type` field and no `kind`, `Copy` or `Hash`, which the rest of the
crate does not compile against.  The `Bar` actually used everywhere
(`Bar::new(weight, gauge, kind)` in `main.rs` and `bridge.rs`, `bar.kind()` in
`gym.rs`, `bar.kind`/`bar.gauge` in `dumbbell.rs`) is the spec §3 `Bar`:
weight, gauge and a kind. -/
structure Bar where
  weight : Nat
  gauge : Nat
  kind : BarKind
deriving DecidableEq, Repr

/-- `Requirement` from `requirement.rs`: target weight plus bar kind. -/
structure Requirement where
  weight : Nat
  bar_kind : BarKind
deriving DecidableEq, Repr

/-- `GymError` from `gym_error.rs`: the single error kind. -/
inductive GymError where
  | InvalidRequirement (r : Requirement)
deriving DecidableEq, Repr

/-- `Dumbbell` from `dumbbell.rs`: a canonical plate list on one side plus the
bar (a "configuration" in the spec's vocabulary). -/
structure Dumbbell where
  plates : List Plate
  bar : Bar
deriving DecidableEq, Repr

/-- Stable insertion sort (insert keeps the incoming element before later
equal elements), modelling the stable sorts of `itertools::sorted` /
`sorted_by_key`. -/
def insertStable (le : α → α → Bool) (a : α) : List α → List α
  | [] => [a]
  | b :: bs => if le a b then a :: b :: bs else b :: insertStable le a bs

/-- Stable sort by a boolean `le`, as `itertools::sorted` (stable). -/
def sortStable (le : α → α → Bool) (l : List α) : List α :=
  l.foldr (insertStable le) []

/-- Stable sort by a `Nat` key, as `itertools::sorted_by_key`. -/
def sortByKeyStable (key : α → Nat) (l : List α) : List α :=
  sortStable (fun a b => key a ≤ key b) l

/-- The derived `Ord` on `Plate` (field order: weight, then gauge), as `≤`. -/
def plateLe (p q : Plate) : Bool :=
  p.weight < q.weight || (p.weight == q.weight && p.gauge ≤ q.gauge)

/-- `Dumbbell::new` from `dumbbell.rs`: sort the plates ascending, reverse
(descending), and keep only the plates matching the bar's gauge. -/
def Dumbbell.new (plates : List Plate) (bar : Bar) : Dumbbell :=
  ⟨((sortStable plateLe plates).reverse).filter (fun p => p.gauge == bar.gauge), bar⟩

/-- `Dumbbell::weight` from `dumbbell.rs`:
`bar.weight + plates.sum::<Plate>().weight * 2`. -/
def Dumbbell.weight (d : Dumbbell) : Nat :=
  d.bar.weight + (Plate.sumPlates d.plates).weight * 2

/-- Modelled from the spec: `GymState::adjacent` (gym_state.rs) calls
`Dumbbell::adjacent`, which is absent from the sources in this snapshot.  The
spec (§3) defines plate-adjacency: the two configurations share the same bar,
their plate-list lengths differ by exactly one, and the shorter list matches
the longer list's weights position-for-position.  `Dumbbell::tree`
(dumbbell.rs, in src) tests exactly the same length/zip condition. -/
def Dumbbell.adjacent (d1 d2 : Dumbbell) : Bool :=
  d1.bar == d2.bar &&
  (Int.natAbs ((d1.plates.length : Int) - (d2.plates.length : Int)) == 1) &&
  (List.zip d1.plates d2.plates).all (fun pq => pq.1.weight == pq.2.weight)

/-- `GymState` from `gym_state.rs`: a map bar → dumbbell, modelled as its
entry list (a `hashbrown::HashMap` is its set of entries; iteration order is
immaterial to every `GymState` method, see `GymState.adjacent`). -/
structure GymState where
  entries : List (Bar × Dumbbell)
deriving DecidableEq, Repr

/-- `GymState::get`. -/
def GymState.get (s : GymState) (b : Bar) : Option Dumbbell :=
  (s.entries.find? (fun e => e.1 == b)).map (·.2)

/-- `GymState::plates`: total plate count across all bars. -/
def GymState.plates (s : GymState) : Nat :=
  (s.entries.map (fun e => e.2.plates.length)).sum

/-- The pairs `(bar, own dumbbell, other's dumbbell)` visited by the loop in
`GymState::adjacent`: `self`'s entries restricted to bars also present in
`other`. -/
def GymState.commonPairs (s o : GymState) : List (Bar × Dumbbell × Dumbbell) :=
  s.entries.filterMap (fun e => (o.get e.1).map (fun d' => (e.1, e.2, d')))

/-- The loop body of `GymState::adjacent`: walk the common pairs, fail if any
pair is neither equal nor adjacent, count adjacent pairs, fail early past one,
and finally require exactly one adjacency. -/
def GymState.adjacentAux : List (Dumbbell × Dumbbell) → Nat → Bool
  | [], acc => acc == 1
  | p :: rest, acc =>
    let same := p.1 == p.2
    let adj := p.1.adjacent p.2
    if !(same || adj) then false
    else
      let acc' := if adj then acc + 1 else acc
      if acc' > 1 then false else GymState.adjacentAux rest acc'

/-- `GymState::adjacent` from `gym_state.rs`. -/
def GymState.adjacent (s o : GymState) : Bool :=
  GymState.adjacentAux ((s.commonPairs o).map (·.2)) 0

/-- Keys of a state's entry map.  In every state a `HashMap` produces these
are pairwise distinct; theorems about arbitrary `GymState` data carry this as
a hypothesis. -/
def GymState.KeysNodup (s : GymState) : Prop :=
  (s.entries.map (·.1)).Nodup

instance (s : GymState) : Decidable s.KeysNodup := by
  unfold GymState.KeysNodup; infer_instance

/-- Number of common bars on which two states hold different configurations
(the "differing bars" of spec §3's state-adjacency). -/
def GymState.diffCount (s o : GymState) : Nat :=
  (s.commonPairs o).countP (fun t => t.2.1 ≠ t.2.2)

/-- The subsets of a list (`itertools::powerset`), each subset keeping the
list's element order.  Only the collection of subsets matters downstream (the
Rust iterator feeds a `HashSet`). -/
def powersetL : List α → List (List α)
  | [] => [[]]
  | a :: as => powersetL as ++ (powersetL as).map (a :: ·)

/-- `Gym::available_dumbbells` from `gym.rs`: every subset of the usable
plate-unit list, canonicalized by `Dumbbell::new`, collected into a set
(modelled by `List.dedup`, keeping first occurrences). -/
def Gym.available_dumbbells (plates : List Plate) (bar : Bar) : List Dumbbell :=
  ((powersetL plates).map (fun ps => Dumbbell.new ps bar)).dedup

/-- `Gym::dumbbells` from `gym.rs`: keep plates whose count is at least
`required_similar_plates`, integer-divide the count by it, expand into a flat
plate list, enumerate configurations, then sort.  `Vec::sorted()` needs
`Ord for Dumbbell`, which is absent from the sources in this snapshot; the
resulting arrangement is taken as the explicit parameter `arrange`
(theorems require only that it permutes the list, concrete instances use
`id`). -/
def Gym.dumbbells (inv : List (Plate × Nat)) (bar : Bar)
    (arrange : List Dumbbell → List Dumbbell) : List Dumbbell :=
  arrange (Gym.available_dumbbells
    (((inv.filter (fun pc => bar.kind.required_similar_plates ≤ pc.2)).map
        (fun pc => (pc.1, pc.2 / bar.kind.required_similar_plates))).flatMap
      (fun pc => List.replicate pc.2 pc.1))
    bar)

/-- `itertools::multi_cartesian_product`: all combinations picking one element
per inner list, first list outermost. -/
def multiCartesian : List (List α) → List (List α)
  | [] => [[]]
  | l :: ls => l.flatMap (fun a => (multiCartesian ls).map (a :: ·))

/-- `HashMap::entry(k).or_default().push(v)`: append `v` to the entry of `k`,
creating it if absent. -/
def pushKV [BEq κ] (m : List (κ × List β)) (k : κ) (v : β) : List (κ × List β) :=
  if m.any (fun e => e.1 == k) then
    m.map (fun e => if e.1 == k then (e.1, e.2 ++ [v]) else e)
  else m ++ [(k, [v])]

/-- The `bar_options` fold in `Gym::new`: group bars by kind, preserving the
input slice's order within each kind. -/
def barOptionsOf (bars : List Bar) : List (BarKind × List Bar) :=
  bars.foldl (fun acc b => pushKV acc b.kind b) []

/-- The `Gym` struct from `gym.rs`.  `graph`, `nodes` and the shortest-path
data are functions of `states` (every state id is a node, an edge joins every
adjacent pair in both directions with weight 1), so they are derived by the
definitions below rather than stored; `weights` is unused by `order`. -/
structure Gym where
  states : List GymState
  bar_options : List (BarKind × List Bar)
deriving Repr

/-- `Gym::new` from `gym.rs`.  `inv` is the caller's plate→count map as an
entry list.  `barOrder` is the iteration order of the `dumbbells` hash map
(its keys are the distinct bars) over whose values the cartesian product is
taken; `arrange` is the per-bar configuration arrangement (see
`Gym.dumbbells`).  Each product combination becomes a state keyed by
`(*dumbbell.bar(), dumbbell)`. -/
def Gym.new (inv : List (Plate × Nat)) (bars : List Bar) (barOrder : List Bar)
    (arrange : List Dumbbell → List Dumbbell) : Gym :=
  { states :=
      (multiCartesian (barOrder.map (fun b => Gym.dumbbells inv b arrange))).map
        (fun combo => GymState.mk (combo.map (fun d => (d.bar, d))))
    bar_options := barOptionsOf bars }

/-- `bar_options.get(kind)`. -/
def Gym.barOptionsGet (g : Gym) (k : BarKind) : Option (List Bar) :=
  (g.bar_options.find? (fun e => e.1 == k)).map (·.2)

/-- The adjacency test `state1.adjacent(state2)` performed by `Gym::graph` on
a pair of state indices (`tuple_combinations` visits each pair once with
`a < b`). -/
def Gym.adjCheck (g : Gym) (a b : Nat) : Bool :=
  match g.states[a]?, g.states[b]? with
  | some s, some t => s.adjacent t
  | _, _ => false

/-- The edge relation of the graph built by `Gym::graph`: for each adjacent
pair both directed edges exist (weights `ADD_WEIGHT = REMOVE_WEIGHT = 1`), so
the relation is symmetric by construction. -/
def Gym.graphAdj (g : Gym) (i j : Nat) : Bool :=
  if i < j then g.adjCheck i j else if j < i then g.adjCheck j i else false

/-- Neighbour list of a state id in the graph. -/
def Gym.nbrs (g : Gym) (i : Nat) : List Nat :=
  (List.range g.states.length).filter (fun j => g.graphAdj i j)

/-- Breadth-first search distance, level by level; `fuel` bounds the number of
level expansions (the state count suffices). -/
def bfsDistGo (nbrs : Nat → List Nat) (target : Nat) :
    Nat → List Nat → List Nat → Nat → Option Nat
  | 0, _, frontier, depth =>
    if frontier.contains target then some depth else none
  | fuel + 1, visited, frontier, depth =>
    if frontier.contains target then some depth
    else
      let visited' := visited ++ frontier
      let next := ((frontier.flatMap nbrs).filter (fun x => !(visited'.contains x))).dedup
      bfsDistGo nbrs target fuel visited' next (depth + 1)

/-- BFS distance from `start` to `target`. -/
def bfsDist (nbrs : Nat → List Nat) (start target fuel : Nat) : Option Nat :=
  bfsDistGo nbrs target fuel [] [start] 0

/-- Modelled from the spec (§4.3): `petgraph::algo::johnson` computes the
all-pairs minimum transition cost over the graph; the lookup has an entry
exactly for the reachable node pairs.  All edge weights are 1, so the minimum
cost is the BFS distance.  (The negative-cycle failure arm of `johnson` is
unreachable with unit weights and is not modelled.) -/
def Gym.johnson (g : Gym) : Nat → Nat → Option Nat := fun a b =>
  if a < g.states.length && b < g.states.length then
    bfsDist g.nbrs a b g.states.length
  else none

/-- Keep the first frontier entry per node id. -/
def dedupKeysGo : List (Nat × List Nat) → List Nat → List (Nat × List Nat)
  | [], _ => []
  | e :: rest, seen =>
    if seen.contains e.1 then dedupKeysGo rest seen
    else e :: dedupKeysGo rest (e.1 :: seen)

/-- Breadth-first path search; each frontier entry carries the reversed path
from the start to it.  Returns a path of minimum edge count when the target
is reachable. -/
def bfsPathGo (nbrs : Nat → List Nat) (target : Nat) :
    Nat → List Nat → List (Nat × List Nat) → Option (List Nat)
  | 0, _, frontier =>
    (frontier.find? (fun p => p.1 == target)).map (fun p => p.2.reverse)
  | fuel + 1, visited, frontier =>
    match frontier.find? (fun p => p.1 == target) with
    | some p => some p.2.reverse
    | none =>
      let visited' := visited ++ frontier.map (·.1)
      let next := dedupKeysGo
        (frontier.flatMap (fun p =>
          (nbrs p.1).filterMap (fun m =>
            if visited'.contains m then none else some (m, m :: p.2)))) []
      bfsPathGo nbrs target fuel visited' next

/-- Modelled from the spec: `petgraph::algo::astar` with unit edge weights and
zero heuristic returns a minimum-cost path from start to goal (inclusive of
both) when one exists and `None` otherwise; with unit weights that is a BFS
shortest path. -/
def Gym.astar (g : Gym) (start e : Nat) : Option (List Nat) :=
  bfsPathGo g.nbrs e g.states.length [] [(start, [start])]

/-- `Gym::find_shortest_path_between_states` from `gym.rs`: empty path for a
pair of equal states; otherwise the A* path (converted back to state ids — the
nodes map is total on state ids, so the conversion drops nothing); and when no
path is found, the fallback `vec![start, end]`. -/
def Gym.find_shortest_path_between_states (g : Gym) (start e : Nat) : List Nat :=
  if start == e then []
  else
    match g.astar start e with
    | some path => path
    | none => [start, e]

/-- Reachability in the state graph (the paths `astar` may find). -/
inductive Reachable (nbrs : Nat → List Nat) (start : Nat) : Nat → Prop
  | refl : Reachable nbrs start start
  | step {a b : Nat} : Reachable nbrs start a → b ∈ nbrs a → Reachable nbrs start b

/-- The closure inside `find_states_for_requirement`: for one state, scan the
bars of the requirement's kind and return the plate count ("complexity") of
the first dumbbell whose weight equals the requirement's weight (the `?` on
`bar_options.get` drops the state when the kind has no bars). -/
def Gym.matchComplexity (g : Gym) (req : Requirement) (st : GymState) : Option Nat :=
  (g.barOptionsGet req.bar_kind).bind (fun bars =>
    bars.findSome? (fun bar =>
      (st.get bar).bind (fun d =>
        if d.weight == req.weight then some d.plates.length else none)))

/-- The `matching_states` vector of `find_states_for_requirement`: qualifying
state ids (enumeration order of the `states` vector) with their complexity. -/
def Gym.matchingStates (g : Gym) (req : Requirement) : List (Nat × Nat) :=
  g.states.enum.filterMap (fun p => (g.matchComplexity req p.2).map (fun c => (p.1, c)))

/-- `Gym::find_states_for_requirement` from `gym.rs`: error if no state
qualifies, else the qualifying ids stably sorted by complexity. -/
def Gym.find_states_for_requirement (g : Gym) (req : Requirement) :
    Except GymError (List Nat) :=
  let ms := g.matchingStates req
  if ms.isEmpty then .error (.InvalidRequirement req)
  else .ok ((sortByKeyStable (·.2) ms).map (·.1))

/-- One row of the DP table `dp[i]`: state id ↦ (cost, predecessor), as an
entry list in insertion order.  The order in which the source iterates a row
is supplied separately (see `shuffle` in `Gym.find_optimal_sequence`). -/
abbrev DPMap := List (Nat × Nat × Option Nat)

/-- `HashMap::insert` on a DP row: overwrite in place or append. -/
def insertDP (m : DPMap) (k : Nat) (v : Nat × Option Nat) : DPMap :=
  if m.any (fun e => e.1 == k) then
    m.map (fun e => if e.1 == k then (k, v.1, v.2) else e)
  else m ++ [(k, v.1, v.2)]

/-- DP row lookup. -/
def lookupDP (m : DPMap) (k : Nat) : Option (Nat × Option Nat) :=
  (m.find? (fun e => e.1 == k)).map (·.2)

/-- The inner loop of the DP fill: walk the previous row in the given order,
keeping the first strictly smaller `prev_cost + transition_cost` (initial
`min_cost = u32::MAX` is modelled by `none`).  The outer `Option` models the
panic of `self.nodes[&prev_state]` on an id that is not a node. -/
def minTransition (len : Nat) (dist : Nat → Nat → Option Nat) (iter : DPMap)
    (cur : Nat) : Option (Option (Nat × Nat)) :=
  iter.foldlM (fun best e =>
    if e.1 < len then
      some (match dist e.1 cur with
        | some t =>
          let tot := e.2.1 + t
          match best with
          | none => some (tot, e.1)
          | some b => if tot < b.1 then some (tot, e.1) else some b
        | none => best)
    else none) none

/-- Initialization of `dp[0]`: candidates of the first requirement reachable
from the start state, at their distance (`self.nodes[&state]` panics on a
non-node id, hence the `Option`). -/
def buildDP0 (len : Nat) (dist : Nat → Nat → Option Nat) (start : Nat)
    (cands : List Nat) : Option DPMap :=
  cands.foldlM (fun acc st =>
    if st < len then
      some (match dist start st with
        | some c => insertDP acc st (c, none)
        | none => acc)
    else none) []

/-- Fill of row `i` from the previous row (already in its iteration order):
insert each candidate reachable from some previous entry with its minimal
cost and predecessor. -/
def buildStage (len : Nat) (dist : Nat → Nat → Option Nat) (prevIter : DPMap)
    (cands : List Nat) : Option DPMap :=
  cands.foldlM (fun acc c =>
    if c < len then
      (minTransition len dist prevIter c).map (fun r =>
        match r with
        | some (cost, p) => insertDP acc c (cost, some p)
        | none => acc)
    else none) []

/-- Rows `1 .. n-1` of the DP table, each filled from its predecessor; the row
passed to stage `i`'s inner loop is `shuffle i prev`. -/
def dpChain (len : Nat) (dist : Nat → Nat → Option Nat)
    (shuffle : Nat → DPMap → DPMap) :
    Nat → DPMap → List (List Nat) → Option (List DPMap)
  | _, _, [] => some []
  | i, prev, cands :: rest =>
    match buildStage len dist (shuffle i prev) cands with
    | none => none
    | some cur => (dpChain len dist shuffle (i + 1) cur rest).map (cur :: ·)

/-- `min_by_key(|(_, (cost, _))| *cost)`: first entry attaining the minimal
cost. -/
def minByCost (l : DPMap) : Option (Nat × Nat × Option Nat) :=
  l.foldl (fun best e =>
    match best with
    | none => some e
    | some b => if e.2.1 < b.2.1 then some e else some b) none

/-- The backward walk reconstructing the path: for `i = n-2, …, 0`, follow the
predecessor recorded in `dp[i+1]` for the current state (skipping silently if
absent, as the `if let` does), pushing onto the vector. -/
def reconGo (dps : List DPMap) : List Nat → Nat → List Nat → List Nat
  | [], _, acc => acc
  | i :: rest, cur, acc =>
    match lookupDP (dps.getD (i + 1) []) cur with
    | some (_, some prev) => reconGo dps rest prev (acc ++ [prev])
    | _ => reconGo dps rest cur acc

/-- Path reconstruction of `find_optimal_sequence`: push the final state, walk
predecessors backward, then reverse. -/
def reconstructPath (dps : List DPMap) (n finalS : Nat) : List Nat :=
  (reconGo dps ((List.range (n - 1)).reverse) finalS [finalS]).reverse

/-- `Gym::find_optimal_sequence` from `gym.rs`.  `shuffle i` is the iteration
order of the row read at stage `i` (`i = 1 … n-1`); `shuffle n` is the
iteration order of the final row in the last-state selection.  The `n = 1`
arm indexes `requirement_states[0][0]`; the final selection first sorts the
last row stably by the state's total plate count (indexing `self.states`, a
panic on a non-state id) and takes the first entry of minimal cost, and on an
empty last row errors with the placeholder `Requirement::new(0, Dumbbell)`. -/
def Gym.find_optimal_sequence (g : Gym) (shuffle : Nat → DPMap → DPMap)
    (start_state : Nat) (requirement_states : List (List Nat))
    (distances : Nat → Nat → Option Nat) : Option (Except GymError (List Nat)) :=
  let n := requirement_states.length
  if n == 0 then some (.ok [])
  else if n == 1 then
    (requirement_states[0]?.bind (fun l => l[0]?)).map (fun s => .ok [s])
  else if start_state < g.states.length then
    match buildDP0 g.states.length distances start_state (requirement_states.getD 0 []) with
    | none => none
    | some dp0 =>
      match dpChain g.states.length distances shuffle 1 dp0 (requirement_states.drop 1) with
      | none => none
      | some rows =>
        let dps := dp0 :: rows
        let lastRow := shuffle n (dps.getLastD [])
        if lastRow.all (fun e => e.1 < g.states.length) then
          match minByCost (sortByKeyStable
              (fun e => ((g.states.getD e.1 (GymState.mk [])).plates)) lastRow) with
          | none => some (.error (.InvalidRequirement ⟨0, .Dumbbell⟩))
          | some fin => some (.ok (reconstructPath dps n fin.1))
        else none
  else none

/-- Sequence a list of panic-or-error computations as
`collect::<Result<Vec<_>, _>>` over a lazy iterator does: stop at the first
panic or error, never touching later elements. -/
def collectPE : List (Option (Except ε α)) → Option (Except ε (List α))
  | [] => some (.ok [])
  | none :: _ => none
  | some (.error e) :: _ => some (.error e)
  | some (.ok a) :: rest => (collectPE rest).map (fun r => r.map (a :: ·))

/-- `min_by_key` keyed by a precomputed `Nat`: first element attaining the
minimal key. -/
def minByKeyFirst (l : List (α × Nat)) : Option (α × Nat) :=
  l.foldl (fun best e =>
    match best with
    | none => some e
    | some b => if e.2 < b.2 then some e else some b) none

/-- The selection part of `Gym::order` (everything before the result-format
conversion): qualifying states per requirement, the distance table, one DP
run per first-requirement candidate, and the `min_by_key` over
`find_shortest_path_between_states(seq[0], seq[1]).len()` — whose `seq[1]`
indexing panics on a one-element sequence. -/
def Gym.chooseSequence (g : Gym) (shuffle : Nat → DPMap → DPMap)
    (reqs : List Requirement) : Option (Except GymError (List Nat)) :=
  match reqs with
  | [] => some (.ok [])
  | r0 :: _ =>
    match reqs.mapM g.find_states_for_requirement with
    | .error e => some (.error e)
    | .ok rss =>
      match rss with
      | [] => some (.error (.InvalidRequirement r0))
      | ss :: _ =>
        match collectPE (ss.map (fun st =>
            g.find_optimal_sequence shuffle st rss g.johnson)) with
        | none => none
        | some (.error e) => some (.error e)
        | some (.ok seqs) =>
          match seqs.mapM (fun sq =>
              match sq[0]?, sq[1]? with
              | some a, some b =>
                some (sq, (g.find_shortest_path_between_states a b).length)
              | _, _ => none) with
          | none => none
          | some keyed =>
            match minByKeyFirst keyed with
            | none => some (.error (.InvalidRequirement r0))
            | some best => some (.ok best.1)

/-- The result-format loop of `Gym::order`: walk the chosen sequence keeping a
requirement index (bumped after each state while below `len - 1`); for each
state, push onto each bar of the current requirement's kind the dumbbell it
holds when that dumbbell's weight equals the requirement's weight.  Panics
(`self.states[..]`, `requirements[..]`) are `none`; a kind absent from
`bar_options` is the `ok_or` error. -/
def buildResultGo (g : Gym) (reqs : List Requirement) :
    List Nat → Nat → List (Bar × List Dumbbell) →
    Option (Except GymError (List (Bar × List Dumbbell)))
  | [], _, m => some (.ok m)
  | sid :: rest, idx, m =>
    match g.states[sid]? with
    | none => none
    | some st =>
      match reqs[idx]? with
      | none => none
      | some req =>
        match g.barOptionsGet req.bar_kind with
        | none => some (.error (.InvalidRequirement req))
        | some bars =>
          let m' := bars.foldl (fun acc bar =>
            match st.get bar with
            | some d => if d.weight == req.weight then pushKV acc bar d else acc
            | none => acc) m
          buildResultGo g reqs rest (if idx < reqs.length - 1 then idx + 1 else idx) m'

/-- Companion of `buildResultGo` that records, instead of the grouped map, the
flat list of pushes `(requirement index, bar, dumbbell)` in push order. -/
def buildAssignGo (g : Gym) (reqs : List Requirement) :
    List Nat → Nat → List (Nat × Bar × Dumbbell) →
    Option (Except GymError (List (Nat × Bar × Dumbbell)))
  | [], _, acc => some (.ok acc)
  | sid :: rest, idx, acc =>
    match g.states[sid]? with
    | none => none
    | some st =>
      match reqs[idx]? with
      | none => none
      | some req =>
        match g.barOptionsGet req.bar_kind with
        | none => some (.error (.InvalidRequirement req))
        | some bars =>
          let acc' := bars.foldl (fun a bar =>
            match st.get bar with
            | some d => if d.weight == req.weight then a ++ [(idx, bar, d)] else a
            | none => a) acc
          buildAssignGo g reqs rest (if idx < reqs.length - 1 then idx + 1 else idx) acc'

/-- Replay a recorded push list onto a result map. -/
def applyPushes (m : List (Bar × List Dumbbell)) (l : List (Nat × Bar × Dumbbell)) :
    List (Bar × List Dumbbell) :=
  l.foldl (fun acc t => pushKV acc t.2.1 t.2.2) m

/-- `Gym::order` from `gym.rs`: empty requirements short-circuit to an empty
map; otherwise select the optimal sequence and convert it to the bar →
configurations map. -/
def Gym.order (g : Gym) (shuffle : Nat → DPMap → DPMap) (reqs : List Requirement) :
    Option (Except GymError (List (Bar × List Dumbbell))) :=
  match reqs with
  | [] => some (.ok [])
  | _ :: _ =>
    match g.chooseSequence shuffle reqs with
    | none => none
    | some (.error e) => some (.error e)
    | some (.ok seq) => buildResultGo g reqs seq 0 []

/-- Well-formedness of `bar_options`: each entry's bars have the entry's kind
(true of every map `Gym::new` builds, see `Gym.new_barOptionsWF`). -/
def Gym.BarOptionsWF (g : Gym) : Prop :=
  ∀ e ∈ g.bar_options, ∀ b ∈ e.2, b.kind = e.1

instance (g : Gym) : Decidable g.BarOptionsWF := by
  unfold Gym.BarOptionsWF; infer_instance

/-! ## Concrete instances used by witnesses and failing-input evaluations -/

/-- A dumbbell bar, 2 kg, gauge 1 (as in `main.rs`). -/
def barD1 : Bar := ⟨2000, 1, .Dumbbell⟩

/-- A gym with one dumbbell bar and an empty inventory: its only state is the
all-unloaded one. -/
def gym1 : Gym := Gym.new [] [barD1] [barD1] id

/-- The identity iteration order (one possible run's hash ordering). -/
def shuffleA : Nat → DPMap → DPMap := fun _ l => l

/-- An iteration order reversing the row read by the final selection (another
possible run's hash ordering; a permutation of the same row). -/
def shuffleB : Nat → DPMap → DPMap := fun i l => if i == 2 then l.reverse else l

/-- A barbell bar of weight 0, gauge 1. -/
def barB : Bar := ⟨0, 1, .Barbell⟩

/-- Inventory 30 g × 2, 20 g × 4, 10 g × 2 at gauge 1: after the barbell's
÷2, the usable units are one 30, two 20s and one 10, so 40 g per side is
constructible both as [30, 10] and as [20, 20]. -/
def invC2 : List (Plate × Nat) := [(⟨30, 1⟩, 2), (⟨20, 1⟩, 4), (⟨10, 1⟩, 2)]

/-- The gym over `invC2` with the single bar `barB` (12 states). -/
def gymC2 : Gym := Gym.new invC2 [barB] [barB] id

/-- Requirements 0 g then 80 g on the barbell: the 80 g stage has the two
equal-cost, equal-plate-count candidates [30, 10] and [20, 20]. -/
def reqsC2 : List Requirement := [⟨0, .Barbell⟩, ⟨80, .Barbell⟩]

/-- The empty configuration on `barB`. -/
def dEmptyB : Dumbbell := Dumbbell.new [] barB

/-- The [20, 20] configuration on `barB` (weight 80). -/
def dTwenties : Dumbbell := Dumbbell.new [⟨20, 1⟩, ⟨20, 1⟩] barB

/-- The [30, 10] configuration on `barB` (weight 80). -/
def dThirtyTen : Dumbbell := Dumbbell.new [⟨30, 1⟩, ⟨10, 1⟩] barB

/-- The [10] configuration on `barB`. -/
def dTen : Dumbbell := Dumbbell.new [⟨10, 1⟩] barB

/-- A gym whose two states differ by two plates on the same bar, hence are
not adjacent: its graph has no edge between them. -/
def gymD : Gym :=
  { states := [GymState.mk [(barB, dEmptyB)], GymState.mk [(barB, dTwenties)]]
    bar_options := [(.Barbell, [barB])] }

/-- Requirements for `gymD`: each stage has exactly one qualifying state
(state 0 then state 1), but no transition path joins them. -/
def reqsD : List Requirement := [⟨0, .Barbell⟩, ⟨80, .Barbell⟩]

/-- A three-state gym: states 0 and 1 are adjacent, state 2 is isolated. -/
def gymC10 : Gym :=
  { states := [GymState.mk [(barB, dEmptyB)], GymState.mk [(barB, dTen)],
               GymState.mk [(barB, dTwenties)]]
    bar_options := [] }

/-! ## Helper lemmas -/

theorem sumPlatesAux (l : List Plate) (acc : Plate) :
    (l.foldl (fun acc p => (⟨acc.weight + p.weight, acc.gauge⟩ : Plate)) acc).weight
      = acc.weight + (l.map Plate.weight).sum := by
  induction l generalizing acc with
  | nil => simp
  | cons p t ih =>
    simp only [List.foldl_cons, List.map_cons, List.sum_cons, ih]
    ring

theorem sumPlates_weight (l : List Plate) :
    (Plate.sumPlates l).weight = (l.map Plate.weight).sum := by
  unfold Plate.sumPlates
  rw [sumPlatesAux]
  simp

/-! ## Claim theorems -/

/-- Claim C8: for every configuration, the weight equals the bar's weight plus
twice the sum of the weights of its (canonical) plates. -/
theorem dumbbell_weight_formula (d : Dumbbell) :
    d.weight = d.bar.weight + 2 * (d.plates.map Plate.weight).sum := by
  unfold Dumbbell.weight
  rw [sumPlates_weight]
  ring

/-- Claim C2 (refuted as stated; the code, not the claim, is at fault): the
pipeline `Gym.new` + `Gym.order` on the identical inventory (`invC2`), bars
(`[barB]`) and requirements (`reqsC2`) returns different successful outputs in
two runs that differ only in the incidental iteration order of the final DP
row (`shuffleA` versus its permutation `shuffleB`): one run plans the [20, 20]
configuration for the 80 g requirement, the other plans [30, 10]. -/
theorem order_two_runs_differ :
    gymC2.order shuffleA reqsC2 = some (.ok [(barB, [dEmptyB, dTwenties])]) ∧
    gymC2.order shuffleB reqsC2 = some (.ok [(barB, [dEmptyB, dThirtyTen])]) ∧
    gymC2.order shuffleA reqsC2 ≠ gymC2.order shuffleB reqsC2 := by
  refine ⟨rfl, rfl, ?_⟩
  intro h
  rw [show gymC2.order shuffleA reqsC2
        = some (.ok [(barB, [dEmptyB, dTwenties])]) from rfl,
      show gymC2.order shuffleB reqsC2
        = some (.ok [(barB, [dEmptyB, dThirtyTen])]) from rfl] at h
  injection h with h1
  injection h1 with h2
  exact absurd h2 (by decide)

/-- Claim C3 (refuted as stated; the code, not the claim, is at fault): in the
staged DP, the two candidates 4 and 7 of the second stage tie at cost 2 and at
total plate count 2, yet `find_optimal_sequence` selects candidate 4 under one
iteration order of the final row and candidate 7 under another — the selection
among equal-cost candidates follows container iteration order, and no
state-id key is consulted.  (`[[0], [4, 7]]` is exactly the staged candidate
input that `order` computes for `reqsC2`.) -/
theorem dp_tie_follows_iteration_order :
    gymC2.find_states_for_requirement ⟨0, .Barbell⟩ = .ok [0] ∧
    gymC2.find_states_for_requirement ⟨80, .Barbell⟩ = .ok [4, 7] ∧
    gymC2.johnson 0 4 = some 2 ∧
    gymC2.johnson 0 7 = some 2 ∧
    (gymC2.states.getD 4 (GymState.mk [])).plates
      = (gymC2.states.getD 7 (GymState.mk [])).plates ∧
    gymC2.find_optimal_sequence shuffleA 0 [[0], [4, 7]] gymC2.johnson
      = some (.ok [0, 4]) ∧
    gymC2.find_optimal_sequence shuffleB 0 [[0], [4, 7]] gymC2.johnson
      = some (.ok [0, 7]) := by
  exact ⟨rfl, rfl, rfl, rfl, rfl, rfl, rfl⟩

/-- Claim C5 (refuted as stated; the code, not the claim, is at fault): in
`gymD` every stage has a qualifying state (state 0 for the 0 g requirement,
state 1 for the 80 g one), but no transition path joins them; `order` then
fails — yet the error carries the hard-coded placeholder
`Requirement::new(0, Dumbbell)`, which is not any requirement of the call, in
particular not the offending (unreachable) 80 g barbell requirement. -/
theorem unreachable_stage_error_is_placeholder :
    gymD.find_states_for_requirement ⟨0, .Barbell⟩ = .ok [0] ∧
    gymD.find_states_for_requirement ⟨80, .Barbell⟩ = .ok [1] ∧
    gymD.johnson 0 1 = none ∧
    gymD.order shuffleA reqsD
      = some (.error (.InvalidRequirement ⟨0, .Dumbbell⟩)) ∧
    ∀ r ∈ reqsD, r ≠ ⟨0, .Dumbbell⟩ := by
  exact ⟨rfl, rfl, rfl, rfl, by decide⟩

theorem find_states_of_empty (g : Gym) (r : Requirement)
    (h : (g.matchingStates r).isEmpty) :
    g.find_states_for_requirement r = .error (.InvalidRequirement r) := by
  unfold Gym.find_states_for_requirement
  simp [h]

theorem find_states_of_nonempty (g : Gym) (r : Requirement)
    (h : ¬ (g.matchingStates r).isEmpty) :
    g.find_states_for_requirement r
      = .ok ((sortByKeyStable (·.2) (g.matchingStates r)).map (·.1)) := by
  unfold Gym.find_states_for_requirement
  simp [h]

theorem mapM_find_states_first_error (g : Gym) (reqs : List Requirement)
    (r₀ : Requirement)
    (h : reqs.find? (fun r => (g.matchingStates r).isEmpty) = some r₀) :
    reqs.mapM g.find_states_for_requirement = .error (.InvalidRequirement r₀) := by
  induction reqs with
  | nil => simp at h
  | cons r t ih =>
    rw [List.find?_cons] at h
    by_cases hr : (g.matchingStates r).isEmpty
    · rw [hr] at h
      simp only [Option.some.injEq] at h
      subst h
      rw [List.mapM_cons, find_states_of_empty g r hr]
      rfl
    · rw [eq_false_of_ne_true hr] at h
      rw [List.mapM_cons, find_states_of_nonempty g r hr, ih h]
      rfl

/-- Claim C4: whenever some requirement of the list has zero qualifying
states, `order` fails with `UnsatisfiableRequirement` (the single error kind
`InvalidRequirement`) carrying exactly the first such requirement in input
order, and returns no partial result. -/
theorem order_fails_with_first_unsatisfiable (g : Gym)
    (shuffle : Nat → DPMap → DPMap) (reqs : List Requirement) (r₀ : Requirement)
    (h : reqs.find? (fun r => (g.matchingStates r).isEmpty) = some r₀) :
    g.order shuffle reqs = some (.error (.InvalidRequirement r₀)) := by
  cases reqs with
  | nil => simp at h
  | cons r t =>
    have hm := mapM_find_states_first_error g (r :: t) r₀ h
    simp only [Gym.order, Gym.chooseSequence, hm]

/-- Witness for C4: in `gym1` the first requirement (the bar's own 2 kg) is
satisfiable and the second (999 g) has zero qualifying states; `order` fails
carrying the 999 g requirement. -/
theorem order_fails_with_first_unsatisfiable_witness :
    ([⟨2000, .Dumbbell⟩, ⟨999, .Dumbbell⟩] : List Requirement).find?
        (fun r => (gym1.matchingStates r).isEmpty) = some ⟨999, .Dumbbell⟩ ∧
    gym1.order shuffleA [⟨2000, .Dumbbell⟩, ⟨999, .Dumbbell⟩]
      = some (.error (.InvalidRequirement ⟨999, .Dumbbell⟩)) :=
  ⟨rfl, order_fails_with_first_unsatisfiable gym1 shuffleA _ _ rfl⟩

theorem insertStable_length (le : α → α → Bool) (a : α) (l : List α) :
    (insertStable le a l).length = l.length + 1 := by
  induction l with
  | nil => rfl
  | cons b bs ih =>
    unfold insertStable
    by_cases hb : le a b
    · simp [hb]
    · simp [hb, ih]

theorem sortStable_length (le : α → α → Bool) (l : List α) :
    (sortStable le l).length = l.length := by
  unfold sortStable
  induction l with
  | nil => rfl
  | cons a t ih => simp [List.foldr_cons, insertStable_length, ih]

theorem find_states_ok_shape (g : Gym) (r : Requirement) (ss : List Nat)
    (h : g.find_states_for_requirement r = .ok ss) : ∃ s₀ t, ss = s₀ :: t := by
  unfold Gym.find_states_for_requirement at h
  by_cases he : (g.matchingStates r).isEmpty
  · simp [he] at h
  · simp only [he, if_neg, Bool.false_eq_true, not_false_eq_true, if_false,
      Except.ok.injEq] at h
    have hlen : ss.length = (g.matchingStates r).length := by
      rw [← h]
      simp [sortByKeyStable, sortStable_length]
    cases ss with
    | nil =>
      rw [List.isEmpty_iff] at he
      exact absurd (List.length_eq_zero.mp hlen.symm) he
    | cons a t => exact ⟨a, t, rfl⟩

/-- Claim C6: a call to `order` with exactly one requirement that has at least
one qualifying state reaches neither documented outcome: the selection key
indexes `seq[1]` of the one-element sequence produced for a single
requirement, so the call panics (`none`) instead of returning a plan or an
error. -/
theorem single_requirement_order_panics (g : Gym) (shuffle : Nat → DPMap → DPMap)
    (r : Requirement) (ss : List Nat)
    (h : g.find_states_for_requirement r = .ok ss) :
    g.order shuffle [r] = none := by
  obtain ⟨s₀, ss', rfl⟩ := find_states_ok_shape g r ss h
  have hm : ([r] : List Requirement).mapM g.find_states_for_requirement
      = .ok [s₀ :: ss'] := by
    rw [List.mapM_cons, h]
    rfl
  have hfos : ∀ st, g.find_optimal_sequence shuffle st [s₀ :: ss'] g.johnson
      = some (.ok [s₀]) := by
    intro st
    simp [Gym.find_optimal_sequence]
  have hcol : ∀ (l : List Nat),
      collectPE (l.map (fun st =>
        g.find_optimal_sequence shuffle st [s₀ :: ss'] g.johnson))
        = some (.ok (l.map (fun _ => [s₀]))) := by
    intro l
    induction l with
    | nil => rfl
    | cons a t ih =>
      simp only [hfos] at ih ⊢
      simp only [List.map_cons, collectPE, ih]
      rfl
  simp only [Gym.order, Gym.chooseSequence, hm, hcol (s₀ :: ss')]
  rfl

/-- Witness for C6: in `gym1` the 2 kg dumbbell requirement has qualifying
state 0, and ordering it alone panics. -/
theorem single_requirement_order_panics_witness :
    gym1.find_states_for_requirement ⟨2000, .Dumbbell⟩ = .ok [0] ∧
    gym1.order shuffleA [⟨2000, .Dumbbell⟩] = none :=
  ⟨rfl, single_requirement_order_panics gym1 shuffleA ⟨2000, .Dumbbell⟩ [0] rfl⟩

theorem nil_mem_powersetL (l : List α) : [] ∈ powersetL l := by
  induction l with
  | nil => simp [powersetL]
  | cons a t ih => simp [powersetL, ih]

theorem empty_mem_available_dumbbells (plates : List Plate) (bar : Bar) :
    Dumbbell.new [] bar ∈ Gym.available_dumbbells plates bar := by
  unfold Gym.available_dumbbells
  rw [List.mem_dedup]
  exact List.mem_map_of_mem _ (nil_mem_powersetL plates)

theorem multiCartesian_mem {ls : List (List α)} {c : List α}
    (h : List.Forall₂ (fun a l => a ∈ l) c ls) : c ∈ multiCartesian ls := by
  induction h with
  | nil => simp [multiCartesian]
  | @cons a l c' ls' ha _ ih =>
    unfold multiCartesian
    rw [List.mem_flatMap]
    exact ⟨a, ha, List.mem_map_of_mem _ ih⟩

/-- Claim C9: for every inventory and bar the enumerated configuration set
contains the empty configuration, whose weight is the bar's own weight; and
for every non-empty bar list, the state space built by `Gym.new` contains the
all-unloaded state (every bar mapped to its empty configuration) — whatever
iteration order the per-bar map and the configuration sort happen to use. -/
theorem empty_configuration_always_enumerated
    (plates : List Plate) (bar : Bar) (inv : List (Plate × Nat)) (bars : List Bar)
    (barOrder : List Bar) (arrange : List Dumbbell → List Dumbbell)
    (harr : ∀ l, List.Perm (arrange l) l) (hne : barOrder ≠ []) :
    Dumbbell.new [] bar ∈ Gym.available_dumbbells plates bar ∧
    (Dumbbell.new [] bar).weight = bar.weight ∧
    GymState.mk (barOrder.map (fun b => (b, Dumbbell.new [] b)))
      ∈ (Gym.new inv bars barOrder arrange).states := by
  refine ⟨empty_mem_available_dumbbells plates bar, rfl, ?_⟩
  clear hne
  unfold Gym.new
  simp only [List.mem_map]
  refine ⟨barOrder.map (fun b => Dumbbell.new [] b), ?_, ?_⟩
  · apply multiCartesian_mem
    rw [List.forall₂_map_right_iff]
    induction barOrder with
    | nil => exact List.Forall₂.nil
    | cons b t ih =>
      refine List.Forall₂.cons ?_ ih
      unfold Gym.dumbbells
      rw [(harr _).mem_iff]
      exact empty_mem_available_dumbbells _ b
  · rw [List.map_map]
    rfl

/-- Witness for C9 at a concrete gym: `gymC2`, whose bar list `[barB]` is
non-empty and whose arrangement is the identity permutation. -/
theorem empty_configuration_always_enumerated_witness :
    Dumbbell.new [] barB ∈ Gym.available_dumbbells [⟨10, 1⟩] barB ∧
    (Dumbbell.new [] barB).weight = barB.weight ∧
    GymState.mk ([barB].map (fun b => (b, Dumbbell.new [] b)))
      ∈ (Gym.new invC2 [barB] [barB] id).states :=
  empty_configuration_always_enumerated [⟨10, 1⟩] barB invC2 [barB] [barB] id
    (fun l => List.Perm.refl l) (by decide)

theorem dedupKeysGo_subset {l : List (Nat × List Nat)} {seen : List Nat} {e}
    (h : e ∈ dedupKeysGo l seen) : e ∈ l := by
  induction l generalizing seen with
  | nil => simp [dedupKeysGo] at h
  | cons a t ih =>
    unfold dedupKeysGo at h
    by_cases hc : seen.contains a.1
    · rw [if_pos hc] at h
      exact List.mem_cons_of_mem a (ih h)
    · rw [if_neg hc] at h
      rcases List.mem_cons.mp h with h | h
      · exact h ▸ List.mem_cons_self a t
      · exact List.mem_cons_of_mem a (ih h)

theorem dedupKeysGo_key_mem {l : List (Nat × List Nat)} {seen : List Nat} {k : Nat}
    (h : ∃ e ∈ l, e.1 = k) (hk : ¬ k ∈ seen) :
    ∃ e ∈ dedupKeysGo l seen, e.1 = k := by
  induction l generalizing seen with
  | nil => simp at h
  | cons a t ih =>
    obtain ⟨e, he, hek⟩ := h
    unfold dedupKeysGo
    by_cases hc : seen.contains a.1
    · rw [if_pos hc]
      rcases List.mem_cons.mp he with rfl | he'
      · exact absurd (hek ▸ (by simpa using hc : e.1 ∈ seen)) hk
      · exact ih ⟨e, he', hek⟩ hk
    · rw [if_neg hc]
      by_cases hak : a.1 = k
      · exact ⟨a, List.mem_cons_self _ _, hak⟩
      · rcases List.mem_cons.mp he with rfl | he'
        · exact absurd hek hak
        · obtain ⟨e', he', hek'⟩ := ih ⟨e, he', hek⟩
            (by
              intro hmem
              rcases List.mem_cons.mp hmem with h | hmem'
              · exact hak h.symm
              · exact hk hmem')
          exact ⟨e', List.mem_cons_of_mem _ he', hek'⟩

theorem bfsPathGo_some_reachable {nbrs : Nat → List Nat} {target : Nat}
    {start : Nat} :
    ∀ (fuel : Nat) (visited : List Nat) (frontier : List (Nat × List Nat))
      (p : List Nat),
      bfsPathGo nbrs target fuel visited frontier = some p →
      (∀ q ∈ frontier, Reachable nbrs start q.1) →
      Reachable nbrs start target := by
  intro fuel
  induction fuel with
  | zero =>
    intro visited frontier p h hq
    unfold bfsPathGo at h
    cases hf : frontier.find? (fun q => q.1 == target) with
    | none => rw [hf] at h; exact absurd h (by simp)
    | some q =>
      have hq' := hq q (List.mem_of_find?_eq_some hf)
      have hqt : q.1 = target := by
        have := List.find?_some hf
        simpa using this
      exact hqt ▸ hq'
  | succ fuel ih =>
    intro visited frontier p h hq
    unfold bfsPathGo at h
    cases hf : frontier.find? (fun q => q.1 == target) with
    | some q =>
      have hq' := hq q (List.mem_of_find?_eq_some hf)
      have hqt : q.1 = target := by
        have := List.find?_some hf
        simpa using this
      exact hqt ▸ hq'
    | none =>
      rw [hf] at h
      refine ih _ _ p h ?_
      intro q hqmem
      have hqL := dedupKeysGo_subset hqmem
      rw [List.mem_flatMap] at hqL
      obtain ⟨w, hw, hq2⟩ := hqL
      rw [List.mem_filterMap] at hq2
      obtain ⟨m, hm, hmq⟩ := hq2
      by_cases hv : ((visited ++ frontier.map (·.1)).contains m)
      · rw [if_pos hv] at hmq
        exact absurd hmq (by simp)
      · rw [if_neg hv] at hmq
        have : q.1 = m := by
          have := congrArg (Option.map Prod.fst) hmq
          simp at this
          exact this.symm
        exact this ▸ Reachable.step (hq w hw) hm

theorem bfsPathGo_found (nbrs : Nat → List Nat) (target fuel : Nat)
    (visited : List Nat) (frontier : List (Nat × List Nat)) (q : Nat × List Nat)
    (h : frontier.find? (fun p => p.1 == target) = some q) :
    bfsPathGo nbrs target fuel visited frontier = some q.2.reverse := by
  cases fuel with
  | zero => unfold bfsPathGo; rw [h]; rfl
  | succ f => unfold bfsPathGo; rw [h]

theorem bfsPathGo_one_step (nbrs : Nat → List Nat) (s e f : Nat)
    (hne : s ≠ e) (hmem : e ∈ nbrs s) :
    bfsPathGo nbrs e (f + 1) [] [(s, [s])] = some [s, e] := by
  have hb : ((s == e) : Bool) = false := by simpa using hne
  have hfind : (([(s, [s])] : List (Nat × List Nat)).find? (fun p => p.1 == e)) = none := by
    simp [List.find?, hb]
  unfold bfsPathGo
  rw [hfind]
  simp only [List.map_cons, List.map_nil, List.nil_append, List.flatMap_cons,
    List.flatMap_nil, List.append_nil]
  have hmemL : (e, [e, s]) ∈ (nbrs s).filterMap
      (fun m => if ([s] : List Nat).contains m then none else some (m, m :: [s])) := by
    rw [List.mem_filterMap]
    refine ⟨e, hmem, ?_⟩
    have hc : (([s] : List Nat).contains e) = false := by
      simp
      exact fun h' => hne h'.symm
    rw [hc]
    simp
  have hkey : ∃ q0 ∈ dedupKeysGo ((nbrs s).filterMap
      (fun m => if ([s] : List Nat).contains m then none else some (m, m :: [s])))
      [], q0.1 = e :=
    dedupKeysGo_key_mem ⟨(e, [e, s]), hmemL, rfl⟩ (by simp)
  obtain ⟨q0, hq0mem, hq0key⟩ := hkey
  have hfs : ((dedupKeysGo ((nbrs s).filterMap
      (fun m => if ([s] : List Nat).contains m then none else some (m, m :: [s])))
      []).find? (fun p => p.1 == e)).isSome := by
    rw [List.find?_isSome]
    exact ⟨q0, hq0mem, by simp [hq0key]⟩
  obtain ⟨q, hq⟩ := Option.isSome_iff_exists.mp hfs
  have hqkey : q.1 = e := by
    have := List.find?_some hq
    simpa using this
  have hqL := dedupKeysGo_subset (List.mem_of_find?_eq_some hq)
  rw [List.mem_filterMap] at hqL
  obtain ⟨m, hm, hmf⟩ := hqL
  have hq2 : q.2 = [q.1, s] := by
    by_cases hc : (([s] : List Nat).contains m)
    · rw [if_pos hc] at hmf
      exact absurd hmf (by simp)
    · rw [if_neg hc] at hmf
      injection hmf with h'
      rw [← h']
  rw [bfsPathGo_found nbrs e f _ _ q hq, hq2, hqkey]
  rfl

/-- Claim C10: for distinct states with no connecting path,
`find_shortest_path_between_states` returns the two-element fallback
`[start, end]` — the same length as the genuine path returned for a directly
adjacent pair — so the selection keyed on path length in `order` cannot tell
an unreachable transition from a single-edge one. -/
theorem unreachable_fallback_matches_adjacent_path (g : Gym) (s e s' e' : Nat)
    (hne : s ≠ e) (hunr : ¬ Reachable g.nbrs s e)
    (hne' : s' ≠ e') (hadj : e' ∈ g.nbrs s') :
    g.find_shortest_path_between_states s e = [s, e] ∧
    g.find_shortest_path_between_states s' e' = [s', e'] ∧
    (g.find_shortest_path_between_states s e).length
      = (g.find_shortest_path_between_states s' e').length := by
  have h1 : g.find_shortest_path_between_states s e = [s, e] := by
    unfold Gym.find_shortest_path_between_states
    have hb : ((s == e) : Bool) = false := by simpa using hne
    rw [hb]
    cases ha : g.astar s e with
    | none => rfl
    | some p =>
      exfalso
      unfold Gym.astar at ha
      refine hunr (bfsPathGo_some_reachable g.states.length [] [(s, [s])] p ha ?_)
      intro q hq
      rw [List.mem_singleton] at hq
      rw [hq]
      exact Reachable.refl
  have h2 : g.find_shortest_path_between_states s' e' = [s', e'] := by
    have hlen : ∃ f, g.states.length = f + 1 := by
      have he' : e' < g.states.length := by
        unfold Gym.nbrs at hadj
        exact List.mem_range.mp (List.mem_filter.mp hadj).1
      exact ⟨g.states.length - 1,
        (Nat.succ_pred_eq_of_pos (Nat.lt_of_le_of_lt (Nat.zero_le e') he')).symm⟩
    obtain ⟨f, hf⟩ := hlen
    unfold Gym.find_shortest_path_between_states
    have hb : ((s' == e') : Bool) = false := by simpa using hne'
    rw [hb]
    unfold Gym.astar
    rw [hf, bfsPathGo_one_step g.nbrs s' e' f hne' hadj]
    rfl
  refine ⟨h1, h2, ?_⟩
  rw [h1, h2]
  rfl

/-- Witness for C10 on `gymC10`: states 0 and 2 are disconnected (the closed
set {0, 1} contains every state reachable from 0), states 0 and 1 are
adjacent, and both calls return two-element paths. -/
theorem unreachable_fallback_matches_adjacent_path_witness :
    (¬ Reachable gymC10.nbrs 0 2) ∧
    (1 ∈ gymC10.nbrs 0) ∧
    gymC10.find_shortest_path_between_states 0 2 = [0, 2] ∧
    gymC10.find_shortest_path_between_states 0 1 = [0, 1] ∧
    (gymC10.find_shortest_path_between_states 0 2).length
      = (gymC10.find_shortest_path_between_states 0 1).length := by
  have hcl : ∀ x, Reachable gymC10.nbrs 0 x → x = 0 ∨ x = 1 := by
    intro x hx
    induction hx with
    | refl => exact Or.inl rfl
    | step hra hb ih =>
      rcases ih with h0 | h1
      · subst h0
        rw [show gymC10.nbrs 0 = [1] from rfl, List.mem_singleton] at hb
        exact Or.inr hb
      · subst h1
        rw [show gymC10.nbrs 1 = [0] from rfl, List.mem_singleton] at hb
        exact Or.inl hb
  have hunr : ¬ Reachable gymC10.nbrs 0 2 := by
    intro h
    rcases hcl 2 h with h' | h' <;> exact absurd h' (by decide)
  have hmain := unreachable_fallback_matches_adjacent_path gymC10 0 2 0 1
    (by decide) hunr (by decide) (by decide)
  exact ⟨hunr, by decide, hmain.1, hmain.2.1, hmain.2.2⟩

theorem natAbsSubComm (a b : Int) : (a - b).natAbs = (b - a).natAbs := by
  rw [← Int.natAbs_neg, Int.neg_sub]

theorem dumbbell_adjacent_of (d1 d2 : Dumbbell) (h : d1.adjacent d2 = true) :
    d2.adjacent d1 = true := by
  unfold Dumbbell.adjacent at h ⊢
  simp only [Bool.and_eq_true, beq_iff_eq, List.all_eq_true] at h ⊢
  obtain ⟨⟨hb, hl⟩, hz⟩ := h
  refine ⟨⟨hb.symm, ?_⟩, ?_⟩
  · rw [natAbsSubComm]
    exact hl
  · intro pq hpq
    rw [← List.zip_swap d1.plates d2.plates, List.mem_map] at hpq
    obtain ⟨q, hq, rfl⟩ := hpq
    exact (hz q hq).symm

theorem dumbbell_adjacent_irrefl (d : Dumbbell) : d.adjacent d = false := by
  unfold Dumbbell.adjacent
  simp

theorem adjacentAux_cons (p : Dumbbell × Dumbbell) (t : List (Dumbbell × Dumbbell))
    (acc : Nat) :
    GymState.adjacentAux (p :: t) acc
      = if !(p.1 == p.2 || p.1.adjacent p.2) then false
        else if (if p.1.adjacent p.2 then acc + 1 else acc) > 1 then false
        else GymState.adjacentAux t (if p.1.adjacent p.2 then acc + 1 else acc) := rfl

theorem adjacentAux_cons_adj {p : Dumbbell × Dumbbell} (t : List (Dumbbell × Dumbbell))
    (acc : Nat) (hadj : p.1.adjacent p.2 = true) :
    GymState.adjacentAux (p :: t) acc
      = if acc + 1 > 1 then false else GymState.adjacentAux t (acc + 1) := by
  rw [adjacentAux_cons, hadj]
  simp

theorem adjacentAux_cons_same {p : Dumbbell × Dumbbell} (t : List (Dumbbell × Dumbbell))
    (acc : Nat) (hadj : p.1.adjacent p.2 = false) (hsame : (p.1 == p.2) = true) :
    GymState.adjacentAux (p :: t) acc
      = if acc > 1 then false else GymState.adjacentAux t acc := by
  rw [adjacentAux_cons, hadj, hsame]
  simp

theorem adjacentAux_cons_bad {p : Dumbbell × Dumbbell} (t : List (Dumbbell × Dumbbell))
    (acc : Nat) (hadj : p.1.adjacent p.2 = false) (hsame : (p.1 == p.2) = false) :
    GymState.adjacentAux (p :: t) acc = false := by
  rw [adjacentAux_cons, hadj, hsame]
  simp

theorem adjacentAux_spec (l : List (Dumbbell × Dumbbell)) (acc : Nat) :
    (GymState.adjacentAux l acc = true)
      ↔ (acc ≤ 1 ∧ (∀ p ∈ l, p.1 = p.2 ∨ p.1.adjacent p.2 = true) ∧
         acc + l.countP (fun p => p.1.adjacent p.2) = 1) := by
  induction l generalizing acc with
  | nil =>
    unfold GymState.adjacentAux
    simp only [List.not_mem_nil, false_implies, implies_true, true_and,
      List.countP_nil, Nat.add_zero, beq_iff_eq]
    omega
  | cons p t ih =>
    rw [List.countP_cons]
    by_cases hadj : p.1.adjacent p.2 = true
    · rw [adjacentAux_cons_adj t acc hadj, hadj]
      simp only [eq_self_iff_true, if_true]
      by_cases hacc : acc + 1 > 1
      · rw [if_pos hacc]
        constructor
        · intro hfalse
          exact absurd hfalse (by simp)
        · rintro ⟨_, _, h3⟩
          omega
      · rw [if_neg hacc, ih (acc + 1)]
        have hacc0 : acc = 0 := by omega
        subst hacc0
        constructor
        · rintro ⟨_, h2, h3⟩
          refine ⟨by omega, ?_, by omega⟩
          rintro q hq
          rcases List.mem_cons.mp hq with rfl | hq'
          · exact Or.inr hadj
          · exact h2 q hq'
        · rintro ⟨_, h2, h3⟩
          exact ⟨by omega, fun q hq => h2 q (List.mem_cons_of_mem p hq), by omega⟩
    · have hadj' := eq_false_of_ne_true hadj
      rw [hadj']
      simp only [Bool.false_eq_true, if_false]
      by_cases hsame : (p.1 == p.2) = true
      · rw [adjacentAux_cons_same t acc hadj' hsame]
        by_cases hacc : acc > 1
        · rw [if_pos hacc]
          constructor
          · intro hfalse
            exact absurd hfalse (by simp)
          · rintro ⟨h1, _, _⟩
            omega
        · rw [if_neg hacc, ih acc]
          constructor
          · rintro ⟨h1, h2, h3⟩
            refine ⟨h1, ?_, by omega⟩
            rintro q hq
            rcases List.mem_cons.mp hq with rfl | hq'
            · exact Or.inl (by simpa using hsame)
            · exact h2 q hq'
          · rintro ⟨h1, h2, h3⟩
            exact ⟨h1, fun q hq => h2 q (List.mem_cons_of_mem p hq), by omega⟩
      · rw [adjacentAux_cons_bad t acc hadj' (eq_false_of_ne_true hsame)]
        constructor
        · intro hfalse
          exact absurd hfalse (by simp)
        · rintro ⟨_, h2, _⟩
          rcases h2 p (List.mem_cons_self p t) with h | h
          · exact absurd (by simp [h] : (p.1 == p.2) = true) hsame
          · exact absurd h hadj

theorem dumbbell_adjacent_comm (d1 d2 : Dumbbell) :
    d1.adjacent d2 = d2.adjacent d1 :=
  Bool.eq_iff_iff.mpr ⟨dumbbell_adjacent_of d1 d2, dumbbell_adjacent_of d2 d1⟩

theorem state_adjacent_spec (s o : GymState) :
    (s.adjacent o = true) ↔
      ((∀ t ∈ s.commonPairs o, t.2.1 = t.2.2 ∨ t.2.1.adjacent t.2.2 = true) ∧
       (s.commonPairs o).countP (fun t => t.2.1.adjacent t.2.2) = 1) := by
  unfold GymState.adjacent
  rw [adjacentAux_spec]
  rw [List.countP_map]
  constructor
  · rintro ⟨_, h2, h3⟩
    refine ⟨?_, ?_⟩
    · intro t ht
      exact h2 t.2 (List.mem_map_of_mem _ ht)
    · rw [Nat.zero_add] at h3
      exact h3
  · rintro ⟨h1, h2⟩
    refine ⟨Nat.zero_le 1, ?_, ?_⟩
    · intro p hp
      rw [List.mem_map] at hp
      obtain ⟨t, ht, rfl⟩ := hp
      exact h1 t ht
    · rw [Nat.zero_add]
      exact h2

theorem mem_commonPairs {s o : GymState} {b : Bar} {d d' : Dumbbell} :
    (b, d, d') ∈ s.commonPairs o ↔ (b, d) ∈ s.entries ∧ o.get b = some d' := by
  unfold GymState.commonPairs
  rw [List.mem_filterMap]
  constructor
  · rintro ⟨e, he, hf⟩
    rw [Option.map_eq_some'] at hf
    obtain ⟨d'', hg, heq⟩ := hf
    obtain ⟨e1, e2⟩ := e
    simp only [Prod.mk.injEq] at heq
    obtain ⟨rfl, rfl, rfl⟩ := heq
    exact ⟨he, hg⟩
  · rintro ⟨he, hg⟩
    exact ⟨(b, d), he, by rw [hg]; rfl⟩

theorem get_eq_some_iff {s : GymState} (hs : s.KeysNodup) {b : Bar} {d : Dumbbell} :
    s.get b = some d ↔ (b, d) ∈ s.entries := by
  unfold GymState.get
  constructor
  · intro h
    rw [Option.map_eq_some'] at h
    obtain ⟨e, hf, he2⟩ := h
    have hmem := List.mem_of_find?_eq_some hf
    have hb : e.1 = b := by simpa using (List.find?_some hf)
    obtain ⟨e1, e2⟩ := e
    simp only at hb he2
    rw [← hb, ← he2]
    exact hmem
  · intro hmem
    have hfs : (s.entries.find? (fun e => e.1 == b)).isSome := by
      rw [List.find?_isSome]
      exact ⟨(b, d), hmem, by simp⟩
    obtain ⟨e, hf⟩ := Option.isSome_iff_exists.mp hfs
    have hmem' := List.mem_of_find?_eq_some hf
    have hb : e.1 = b := by simpa using (List.find?_some hf)
    have hed : e = (b, d) := List.inj_on_of_nodup_map hs hmem' hmem (by simpa using hb)
    rw [hf, hed]
    rfl

theorem commonPairsAux_keys_sublist (o : GymState) (l : List (Bar × Dumbbell)) :
    ((l.filterMap (fun e => (o.get e.1).map (fun d' => (e.1, e.2, d')))).map
        (fun t => t.1)).Sublist (l.map (fun e => e.1)) := by
  induction l with
  | nil => simp
  | cons e t ih =>
    rw [List.filterMap_cons]
    cases hg : o.get e.1 with
    | none =>
      simp only [Option.map_none', List.map_cons]
      exact ih.cons _
    | some d' =>
      simp only [Option.map_some', List.map_cons]
      exact ih.cons₂ _

theorem commonPairs_keys_nodup {s : GymState} (o : GymState) (hs : s.KeysNodup) :
    (s.commonPairs o).Nodup :=
  List.Nodup.of_map _ ((commonPairsAux_keys_sublist o s.entries).nodup hs)

theorem commonPairs_perm (s o : GymState) (hs : s.KeysNodup) (ho : o.KeysNodup) :
    List.Perm (s.commonPairs o)
      ((o.commonPairs s).map (fun t => (t.1, t.2.2, t.2.1))) := by
  apply List.perm_of_nodup_nodup_toFinset_eq (commonPairs_keys_nodup o hs)
  · apply List.Nodup.map
    · intro x y hxy
      obtain ⟨x1, x2, x3⟩ := x
      obtain ⟨y1, y2, y3⟩ := y
      simp only [Prod.mk.injEq] at hxy
      simp [hxy.1, hxy.2.1, hxy.2.2]
    · exact commonPairs_keys_nodup s ho
  · apply List.toFinset.ext
    intro t
    obtain ⟨b, d, d'⟩ := t
    rw [mem_commonPairs, List.mem_map]
    constructor
    · rintro ⟨hmem, hget⟩
      refine ⟨(b, d', d), ?_, rfl⟩
      rw [mem_commonPairs]
      exact ⟨(get_eq_some_iff ho).mp hget, (get_eq_some_iff hs).mpr hmem⟩
    · rintro ⟨u, hu, hequ⟩
      obtain ⟨b', d1, d2⟩ := u
      simp only [Prod.mk.injEq] at hequ
      obtain ⟨rfl, rfl, rfl⟩ := hequ
      rw [mem_commonPairs] at hu
      exact ⟨(get_eq_some_iff hs).mp hu.2, (get_eq_some_iff ho).mpr hu.1⟩

theorem state_adjacent_of (s o : GymState) (hs : s.KeysNodup) (ho : o.KeysNodup)
    (h : s.adjacent o = true) : o.adjacent s = true := by
  rw [state_adjacent_spec] at h ⊢
  obtain ⟨h1, h2⟩ := h
  have hperm := commonPairs_perm s o hs ho
  constructor
  · intro t ht
    have hmem : (t.1, t.2.2, t.2.1) ∈ s.commonPairs o :=
      hperm.mem_iff.mpr (List.mem_map_of_mem _ ht)
    rcases h1 _ hmem with h | h
    · exact Or.inl h.symm
    · exact Or.inr (dumbbell_adjacent_of _ _ h)
  · have hc : List.countP (fun t => t.2.1.adjacent t.2.2) (s.commonPairs o)
        = List.countP ((fun t : Bar × Dumbbell × Dumbbell => t.2.1.adjacent t.2.2) ∘
            (fun t : Bar × Dumbbell × Dumbbell => (t.1, t.2.2, t.2.1)))
            (o.commonPairs s) := by
      rw [List.Perm.countP_eq _ hperm, List.countP_map]
    rw [hc] at h2
    rw [← h2]
    apply List.countP_congr
    intro t ht
    simp only [Function.comp]
    rw [dumbbell_adjacent_comm]

theorem state_adjacent_irrefl_aux (s : GymState) (hs : s.KeysNodup) :
    s.adjacent s = false := by
  rw [← Bool.not_eq_true]
  rw [state_adjacent_spec]
  rintro ⟨_, h2⟩
  have hzero : (s.commonPairs s).countP (fun t => t.2.1.adjacent t.2.2) = 0 := by
    rw [List.countP_eq_zero]
    intro t ht
    obtain ⟨b, d, d'⟩ := t
    rw [mem_commonPairs] at ht
    have hgd : s.get b = some d := (get_eq_some_iff hs).mpr ht.1
    rw [ht.2] at hgd
    injection hgd with hdd
    simp only [← hdd]
    simp [dumbbell_adjacent_irrefl]
  omega

theorem state_adjacent_diffCount (s o : GymState) (h : s.adjacent o = true) :
    s.diffCount o = 1 := by
  rw [state_adjacent_spec] at h
  obtain ⟨h1, h2⟩ := h
  unfold GymState.diffCount
  rw [← h2]
  apply List.countP_congr
  intro t ht
  by_cases he : t.2.1 = t.2.2
  · simp only [he, decide_eq_true_eq]
    simp [dumbbell_adjacent_irrefl]
  · rcases h1 t ht with h | h
    · exact absurd h he
    · simp [he, h]

/-- Claim C7: plate-adjacency is symmetric and irreflexive, and state-adjacency
is symmetric (for states with duplicate-free bar keys, as every `HashMap`
guarantees), irreflexive, and holds only when exactly one common bar's
configuration differs — states differing on zero or on two or more bars are
never adjacent. -/
theorem adjacency_symmetric_irreflexive :
    (∀ d1 d2 : Dumbbell, d1.adjacent d2 = d2.adjacent d1) ∧
    (∀ d : Dumbbell, d.adjacent d = false) ∧
    (∀ s o : GymState, s.KeysNodup → o.KeysNodup → s.adjacent o = o.adjacent s) ∧
    (∀ s : GymState, s.KeysNodup → s.adjacent s = false) ∧
    (∀ s o : GymState, s.adjacent o = true → s.diffCount o = 1) := by
  refine ⟨dumbbell_adjacent_comm, dumbbell_adjacent_irrefl, ?_,
    state_adjacent_irrefl_aux, state_adjacent_diffCount⟩
  intro s o hs ho
  exact Bool.eq_iff_iff.mpr ⟨state_adjacent_of s o hs ho, state_adjacent_of o s ho hs⟩

/-- Witness for C7 at concrete states: one bar holding [10] versus the empty
configuration (adjacent: exactly one bar differs by one plate). -/
theorem adjacency_symmetric_irreflexive_witness :
    dTen.adjacent dEmptyB = dEmptyB.adjacent dTen ∧
    dTen.adjacent dTen = false ∧
    (GymState.mk [(barB, dTen)]).adjacent (GymState.mk [(barB, dEmptyB)])
      = (GymState.mk [(barB, dEmptyB)]).adjacent (GymState.mk [(barB, dTen)]) ∧
    (GymState.mk [(barB, dTen)]).adjacent (GymState.mk [(barB, dTen)]) = false ∧
    (GymState.mk [(barB, dTen)]).diffCount (GymState.mk [(barB, dEmptyB)]) = 1 := by
  have h := adjacency_symmetric_irreflexive
  exact ⟨h.1 dTen dEmptyB, h.2.1 dTen,
    h.2.2.1 _ _ (by decide) (by decide),
    h.2.2.2.1 _ (by decide),
    h.2.2.2.2 _ _ (by decide)⟩

theorem barOptionsGet_kind (g : Gym) (hwf : g.BarOptionsWF) {k : BarKind}
    {bars : List Bar} (h : g.barOptionsGet k = some bars) :
    ∀ b ∈ bars, b.kind = k := by
  unfold Gym.barOptionsGet at h
  rw [Option.map_eq_some'] at h
  obtain ⟨e, hf, he⟩ := h
  have hmem := List.mem_of_find?_eq_some hf
  have hk : e.1 = k := by simpa using List.find?_some hf
  intro b hb
  rw [← hk]
  exact hwf e hmem b (he ▸ hb)

theorem pushFold_mem (st : GymState) (req : Requirement) (idx : Nat) :
    ∀ (bars : List Bar) (acc : List (Nat × Bar × Dumbbell))
      (t : Nat × Bar × Dumbbell),
      t ∈ bars.foldl (fun a bar =>
        match st.get bar with
        | some d => if d.weight == req.weight then a ++ [(idx, bar, d)] else a
        | none => a) acc →
      t ∈ acc ∨ ∃ bar ∈ bars, ∃ d, st.get bar = some d ∧
        d.weight = req.weight ∧ t = (idx, bar, d) := by
  intro bars
  induction bars with
  | nil =>
    intro acc t ht
    exact Or.inl ht
  | cons bar rest ih =>
    intro acc t ht
    rw [List.foldl_cons] at ht
    cases hg : st.get bar with
    | none =>
      rw [hg] at ht
      rcases ih acc t ht with h | ⟨b', hb', hd⟩
      · exact Or.inl h
      · exact Or.inr ⟨b', List.mem_cons_of_mem bar hb', hd⟩
    | some d =>
      rw [hg] at ht
      dsimp only at ht
      by_cases hw : (d.weight == req.weight) = true
      · rw [if_pos hw] at ht
        rcases ih _ t ht with h | ⟨b', hb', hd⟩
        · rcases List.mem_append.mp h with h' | h'
          · exact Or.inl h'
          · rw [List.mem_singleton] at h'
            exact Or.inr ⟨bar, List.mem_cons_self bar rest,
              d, hg, by simpa using hw, h'⟩
        · exact Or.inr ⟨b', List.mem_cons_of_mem bar hb', hd⟩
      · rw [if_neg hw] at ht
        rcases ih acc t ht with h | ⟨b', hb', hd⟩
        · exact Or.inl h
        · exact Or.inr ⟨b', List.mem_cons_of_mem bar hb', hd⟩

theorem buildAssignGo_good (g : Gym) (hwf : g.BarOptionsWF)
    (reqs : List Requirement) :
    ∀ (seq : List Nat) (idx : Nat) (acc out : List (Nat × Bar × Dumbbell)),
      buildAssignGo g reqs seq idx acc = some (.ok out) →
      (∀ t ∈ acc, ∃ r, reqs[t.1]? = some r ∧
        t.2.2.weight = r.weight ∧ t.2.1.kind = r.bar_kind) →
      ∀ t ∈ out, ∃ r, reqs[t.1]? = some r ∧
        t.2.2.weight = r.weight ∧ t.2.1.kind = r.bar_kind := by
  intro seq
  induction seq with
  | nil =>
    intro idx acc out h hacc
    unfold buildAssignGo at h
    simp only [Option.some.injEq, Except.ok.injEq] at h
    exact h ▸ hacc
  | cons sid rest ih =>
    intro idx acc out h hacc
    unfold buildAssignGo at h
    cases hst : g.states[sid]? with
    | none => rw [hst] at h; exact absurd h (by simp)
    | some st =>
      rw [hst] at h
      dsimp only at h
      cases hreq : reqs[idx]? with
      | none => rw [hreq] at h; exact absurd h (by simp)
      | some req =>
        rw [hreq] at h
        dsimp only at h
        cases hbo : g.barOptionsGet req.bar_kind with
        | none => rw [hbo] at h; exact absurd h (by simp)
        | some bars =>
          rw [hbo] at h
          refine ih _ _ out h ?_
          intro t ht
          rcases pushFold_mem st req idx bars acc t ht with hin | ⟨bar, hbar, d, hgd, hwd, rfl⟩
          · exact hacc t hin
          · exact ⟨req, hreq, hwd, barOptionsGet_kind g hwf hbo bar hbar⟩

theorem assignFold_acc (st : GymState) (req : Requirement) (idx : Nat) :
    ∀ (bars : List Bar) (acc : List (Nat × Bar × Dumbbell)),
      bars.foldl (fun a bar =>
        match st.get bar with
        | some d => if d.weight == req.weight then a ++ [(idx, bar, d)] else a
        | none => a) acc
      = acc ++ bars.foldl (fun a bar =>
        match st.get bar with
        | some d => if d.weight == req.weight then a ++ [(idx, bar, d)] else a
        | none => a) [] := by
  intro bars
  induction bars with
  | nil =>
    intro acc
    simp
  | cons bar rest ih =>
    intro acc
    rw [List.foldl_cons, List.foldl_cons]
    cases hg : st.get bar with
    | none =>
      exact ih acc
    | some d =>
      dsimp only
      by_cases hw : (d.weight == req.weight) = true
      · rw [if_pos hw, if_pos hw]
        rw [ih (acc ++ [(idx, bar, d)]), ih ([] ++ [(idx, bar, d)])]
        simp
      · rw [if_neg hw, if_neg hw]
        exact ih acc

theorem resultFold_eq (st : GymState) (req : Requirement) (idx : Nat) :
    ∀ (bars : List Bar) (m : List (Bar × List Dumbbell)),
      bars.foldl (fun acc bar =>
        match st.get bar with
        | some d => if d.weight == req.weight then pushKV acc bar d else acc
        | none => acc) m
      = applyPushes m (bars.foldl (fun a bar =>
        match st.get bar with
        | some d => if d.weight == req.weight then a ++ [(idx, bar, d)] else a
        | none => a) []) := by
  intro bars
  induction bars with
  | nil =>
    intro m
    rfl
  | cons bar rest ih =>
    intro m
    rw [List.foldl_cons, List.foldl_cons]
    cases hg : st.get bar with
    | none =>
      exact ih m
    | some d =>
      dsimp only
      by_cases hw : (d.weight == req.weight) = true
      · rw [if_pos hw, if_pos hw]
        rw [ih (pushKV m bar d), assignFold_acc st req idx rest ([] ++ [(idx, bar, d)])]
        unfold applyPushes
        rw [List.nil_append, List.foldl_append]
        rfl
      · rw [if_neg hw, if_neg hw]
        exact ih m

theorem exceptMap_map {ε α β γ : Type} (f : β → γ) (gf : α → β) (e : Except ε α) :
    (e.map gf).map f = e.map (f ∘ gf) := by
  cases e <;> rfl

theorem buildAssignGo_acc (g : Gym) (reqs : List Requirement) :
    ∀ (seq : List Nat) (idx : Nat) (acc : List (Nat × Bar × Dumbbell)),
      buildAssignGo g reqs seq idx acc
        = (buildAssignGo g reqs seq idx []).map (Except.map (acc ++ ·)) := by
  intro seq
  induction seq with
  | nil =>
    intro idx acc
    unfold buildAssignGo
    simp [Except.map]
  | cons sid rest ih =>
    intro idx acc
    unfold buildAssignGo
    cases hst : g.states[sid]? with
    | none => rfl
    | some st =>
      dsimp only
      cases hreq : reqs[idx]? with
      | none => rfl
      | some req =>
        dsimp only
        cases hbo : g.barOptionsGet req.bar_kind with
        | none => rfl
        | some bars =>
          dsimp only
          rw [assignFold_acc st req idx bars acc,
            ih (if idx < reqs.length - 1 then idx + 1 else idx)
              (acc ++ (bars.foldl (fun a bar =>
                match st.get bar with
                | some d => if d.weight == req.weight then a ++ [(idx, bar, d)] else a
                | none => a) [])),
            ih (if idx < reqs.length - 1 then idx + 1 else idx)
              (bars.foldl (fun a bar =>
                match st.get bar with
                | some d => if d.weight == req.weight then a ++ [(idx, bar, d)] else a
                | none => a) [])]
          rw [Option.map_map]
          congr 1
          funext e
          simp only [Function.comp]
          rw [exceptMap_map]
          congr 1
          funext x
          simp

theorem buildResultGo_eq (g : Gym) (reqs : List Requirement) :
    ∀ (seq : List Nat) (idx : Nat) (m : List (Bar × List Dumbbell)),
      buildResultGo g reqs seq idx m
        = (buildAssignGo g reqs seq idx []).map (Except.map (applyPushes m)) := by
  intro seq
  induction seq with
  | nil =>
    intro idx m
    rfl
  | cons sid rest ih =>
    intro idx m
    unfold buildResultGo buildAssignGo
    cases hst : g.states[sid]? with
    | none => rfl
    | some st =>
      dsimp only
      cases hreq : reqs[idx]? with
      | none => rfl
      | some req =>
        dsimp only
        cases hbo : g.barOptionsGet req.bar_kind with
        | none => rfl
        | some bars =>
          dsimp only
          rw [ih (if idx < reqs.length - 1 then idx + 1 else idx) _,
            buildAssignGo_acc g reqs rest (if idx < reqs.length - 1 then idx + 1 else idx)
              (bars.foldl (fun a bar =>
                match st.get bar with
                | some d => if d.weight == req.weight then a ++ [(idx, bar, d)] else a
                | none => a) []),
            Option.map_map]
          congr 1
          funext e
          simp only [Function.comp]
          rw [exceptMap_map]
          congr 1
          funext x
          rw [resultFold_eq st req idx bars m]
          unfold applyPushes
          simp only [Function.comp]
          rw [List.foldl_append]

theorem insertDP_mem {m : DPMap} {k : Nat} {v : Nat × Option Nat} {e}
    (h : e ∈ insertDP m k v) : e ∈ m ∨ e = (k, v.1, v.2) := by
  unfold insertDP at h
  by_cases hc : m.any (fun e => e.1 == k)
  · rw [if_pos hc] at h
    rw [List.mem_map] at h
    obtain ⟨e', he', heq⟩ := h
    by_cases hk : (e'.1 == k) = true
    · rw [if_pos hk] at heq
      exact Or.inr heq.symm
    · rw [if_neg hk] at heq
      exact Or.inl (heq ▸ he')
  · rw [if_neg hc] at h
    rcases List.mem_append.mp h with h' | h'
    · exact Or.inl h'
    · exact Or.inr (List.mem_singleton.mp h')

theorem buildDP0_mem (len : Nat) (dist : Nat → Nat → Option Nat) (start : Nat) :
    ∀ (cands : List Nat) (acc m : DPMap),
      (cands.foldlM (fun acc st =>
        if st < len then
          some (match dist start st with
            | some c => insertDP acc st (c, none)
            | none => acc)
        else none) acc) = some m →
      ∀ e ∈ m, e ∈ acc ∨ e.1 ∈ cands := by
  intro cands
  induction cands with
  | nil =>
    intro acc m h e he
    simp only [List.foldlM_nil, Option.pure_def, Option.some.injEq] at h
    exact Or.inl (h ▸ he)
  | cons c rest ih =>
    intro acc m h e he
    rw [List.foldlM_cons] at h
    by_cases hc : c < len
    · rw [if_pos hc] at h
      dsimp only [Bind.bind, Option.bind] at h
      rcases ih _ m h e he with hin | hin
      · cases hd : dist start c with
        | none =>
          rw [hd] at hin
          exact Or.inl hin
        | some cost =>
          rw [hd] at hin
          rcases insertDP_mem hin with h' | h'
          · exact Or.inl h'
          · exact Or.inr (by rw [h']; exact List.mem_cons_self c rest)
      · exact Or.inr (List.mem_cons_of_mem c hin)
    · rw [if_neg hc] at h
      exact absurd h (by simp)

theorem minTransition_mem (len : Nat) (dist : Nat → Nat → Option Nat) (cur : Nat) :
    ∀ (iter : DPMap) (best0 res : Option (Nat × Nat)),
      (iter.foldlM (fun best e =>
        if e.1 < len then
          some (match dist e.1 cur with
            | some t =>
              let tot := e.2.1 + t
              match best with
              | none => some (tot, e.1)
              | some b => if tot < b.1 then some (tot, e.1) else some b
            | none => best)
        else none) best0) = some res →
      ∀ c p, res = some (c, p) →
        p ∈ iter.map (fun e => e.1) ∨ ∃ c', best0 = some (c', p) := by
  intro iter
  induction iter with
  | nil =>
    intro best0 res h c p hres
    simp only [List.foldlM_nil, Option.pure_def, Option.some.injEq] at h
    exact Or.inr ⟨c, by rw [h, hres]⟩
  | cons e rest ih =>
    intro best0 res h c p hres
    rw [List.foldlM_cons] at h
    by_cases hc : e.1 < len
    · rw [if_pos hc] at h
      dsimp only [Bind.bind, Option.bind] at h
      rcases ih _ res h c p hres with hin | ⟨c', hX⟩
      · exact Or.inl (List.mem_cons_of_mem _ hin)
      · cases hd : dist e.1 cur with
        | none =>
          rw [hd] at hX
          exact Or.inr ⟨c', hX⟩
        | some t =>
          rw [hd] at hX
          cases hb : best0 with
          | none =>
            rw [hb] at hX
            simp only [Option.some.injEq, Prod.mk.injEq] at hX
            exact Or.inl (by rw [List.map_cons, ← hX.2]; exact List.mem_cons_self _ _)
          | some b =>
            rw [hb] at hX
            dsimp only at hX
            by_cases hlt : e.2.1 + t < b.1
            · rw [if_pos hlt] at hX
              simp only [Option.some.injEq, Prod.mk.injEq] at hX
              exact Or.inl (by rw [List.map_cons, ← hX.2]; exact List.mem_cons_self _ _)
            · rw [if_neg hlt] at hX
              simp only [Option.some.injEq] at hX
              exact Or.inr ⟨c', by rw [hX]⟩
    · rw [if_neg hc] at h
      exact absurd h (by simp)

theorem buildStage_mem (len : Nat) (dist : Nat → Nat → Option Nat) (prevIter : DPMap) :
    ∀ (cands : List Nat) (acc m : DPMap),
      (cands.foldlM (fun acc c =>
        if c < len then
          (minTransition len dist prevIter c).map (fun r =>
            match r with
            | some (cost, p) => insertDP acc c (cost, some p)
            | none => acc)
        else none) acc) = some m →
      ∀ e ∈ m, e ∈ acc ∨ (e.1 ∈ cands ∧
        ∃ cst p, e.2 = (cst, some p) ∧ p ∈ prevIter.map (fun x => x.1)) := by
  intro cands
  induction cands with
  | nil =>
    intro acc m h e he
    simp only [List.foldlM_nil, Option.pure_def, Option.some.injEq] at h
    exact Or.inl (h ▸ he)
  | cons c rest ih =>
    intro acc m h e he
    rw [List.foldlM_cons] at h
    by_cases hc : c < len
    · rw [if_pos hc] at h
      cases hmt : minTransition len dist prevIter c with
      | none =>
        rw [hmt] at h
        exact absurd h (by simp)
      | some r =>
        rw [hmt] at h
        simp only [Option.map_some'] at h
        dsimp only [Bind.bind, Option.bind] at h
        rcases ih _ m h e he with hin | ⟨hmem, hrest⟩
        · cases r with
          | none => exact Or.inl hin
          | some cp =>
            obtain ⟨cost, p⟩ := cp
            dsimp only at hin
            rcases insertDP_mem hin with h' | h'
            · exact Or.inl h'
            · refine Or.inr ⟨by rw [h']; exact List.mem_cons_self c rest, cost, p, by rw [h'], ?_⟩
              have := minTransition_mem len dist c prevIter none (some (cost, p))
                (by unfold minTransition at hmt; exact hmt) cost p rfl
              rcases this with hmem' | ⟨_, habs⟩
              · exact hmem'
              · exact absurd habs (by simp)
        · exact Or.inr ⟨List.mem_cons_of_mem c hmem, hrest⟩
    · rw [if_neg hc] at h
      exact absurd h (by simp)

theorem buildStage_mem' {len : Nat} {dist : Nat → Nat → Option Nat}
    {prevIter : DPMap} {cands : List Nat} {m : DPMap}
    (h : buildStage len dist prevIter cands = some m) :
    ∀ e ∈ m, e.1 ∈ cands ∧
      ∃ cst p, e.2 = (cst, some p) ∧ p ∈ prevIter.map (fun x => x.1) := by
  intro e he
  have := buildStage_mem len dist prevIter cands [] m
    (by unfold buildStage at h; exact h) e he
  rcases this with h' | h'
  · exact absurd h' (by simp)
  · exact h'

theorem buildDP0_mem' {len : Nat} {dist : Nat → Nat → Option Nat} {start : Nat}
    {cands : List Nat} {m : DPMap}
    (h : buildDP0 len dist start cands = some m) :
    ∀ e ∈ m, e.1 ∈ cands := by
  intro e he
  have := buildDP0_mem len dist start cands [] m
    (by unfold buildDP0 at h; exact h) e he
  rcases this with h' | h'
  · exact absurd h' (by simp)
  · exact h'

theorem dpChain_spec (len : Nat) (dist : Nat → Nat → Option Nat)
    (shuffle : Nat → DPMap → DPMap) (hsh : ∀ i l, List.Perm (shuffle i l) l) :
    ∀ (candsList : List (List Nat)) (i0 : Nat) (prev : DPMap) (rows : List DPMap),
      dpChain len dist shuffle i0 prev candsList = some rows →
      rows.length = candsList.length ∧
      ∀ (j : Nat) (e : Nat × Nat × Option Nat), e ∈ rows.getD j [] →
        (∃ cl, candsList[j]? = some cl ∧ e.1 ∈ cl) ∧
        ∃ cst p, e.2 = (cst, some p) ∧
          p ∈ ((prev :: rows).getD j []).map (fun x => x.1) := by
  intro candsList
  induction candsList with
  | nil =>
    intro i0 prev rows h
    unfold dpChain at h
    simp only [Option.some.injEq] at h
    subst h
    refine ⟨rfl, ?_⟩
    intro j e he
    rw [List.getD] at he
    simp at he
  | cons cands cl' ih =>
    intro i0 prev rows h
    unfold dpChain at h
    cases hbs : buildStage len dist (shuffle i0 prev) cands with
    | none => rw [hbs] at h; exact absurd h (by simp)
    | some cur =>
      rw [hbs] at h
      dsimp only at h
      cases hch : dpChain len dist shuffle (i0 + 1) cur cl' with
      | none => rw [hch] at h; exact absurd h (by simp)
      | some rows' =>
        rw [hch] at h
        simp only [Option.map_some', Option.some.injEq] at h
        subst h
        obtain ⟨hlen, hprops⟩ := ih (i0 + 1) cur rows' hch
        refine ⟨by simp [hlen], ?_⟩
        intro j e he
        cases j with
        | zero =>
          simp only [List.getD_cons_zero] at he ⊢
          obtain ⟨hmem, cst, p, he2, hp⟩ := buildStage_mem' hbs e he
          refine ⟨⟨cands, by simp, hmem⟩, cst, p, he2, ?_⟩
          have hperm := (hsh i0 prev).map (fun x => x.1)
          exact hperm.mem_iff.mp hp
        | succ j' =>
          simp only [List.getD_cons_succ] at he ⊢
          simp only [List.getElem?_cons_succ]
          exact hprops j' e he

theorem lookupDP_of_key {m : DPMap} {cur : Nat}
    (h : cur ∈ m.map (fun x => x.1)) :
    ∃ e ∈ m, e.1 = cur ∧ lookupDP m cur = some e.2 := by
  rw [List.mem_map] at h
  obtain ⟨e0, he0, hk⟩ := h
  have hfs : (m.find? (fun x => x.1 == cur)).isSome := by
    rw [List.find?_isSome]
    exact ⟨e0, he0, by simp [hk]⟩
  obtain ⟨e, hf⟩ := Option.isSome_iff_exists.mp hfs
  refine ⟨e, List.mem_of_find?_eq_some hf, by simpa using List.find?_some hf, ?_⟩
  unfold lookupDP
  rw [hf]
  rfl

theorem insertStable_perm (le : α → α → Bool) (a : α) (l : List α) :
    List.Perm (insertStable le a l) (a :: l) := by
  induction l with
  | nil => exact List.Perm.refl _
  | cons b bs ih =>
    unfold insertStable
    by_cases hb : le a b
    · rw [if_pos hb]
    · rw [if_neg hb]
      exact (ih.cons b).trans (List.Perm.swap a b bs)

theorem sortStable_perm (le : α → α → Bool) (l : List α) :
    List.Perm (sortStable le l) l := by
  unfold sortStable
  induction l with
  | nil => exact List.Perm.refl _
  | cons a t ih =>
    rw [List.foldr_cons]
    exact (insertStable_perm le a _).trans (ih.cons a)

theorem minByCost_mem {l : DPMap} {x : Nat × Nat × Option Nat}
    (h : minByCost l = some x) : x ∈ l := by
  unfold minByCost at h
  suffices hgen : ∀ (l' : DPMap) (b : Option (Nat × Nat × Option Nat)),
      l'.foldl (fun best e =>
        match best with
        | none => some e
        | some b => if e.2.1 < b.2.1 then some e else some b) b = some x →
      (b = some x ∨ x ∈ l') by
    rcases hgen l none h with h' | h'
    · exact absurd h' (by simp)
    · exact h'
  intro l'
  induction l' with
  | nil =>
    intro b hb
    exact Or.inl hb
  | cons e rest ih =>
    intro b hb
    rw [List.foldl_cons] at hb
    cases b with
    | none =>
      rcases ih (some e) hb with h' | h'
      · simp only [Option.some.injEq] at h'
        exact Or.inr (h' ▸ List.mem_cons_self e rest)
      · exact Or.inr (List.mem_cons_of_mem e h')
    | some b0 =>
      dsimp only at hb
      by_cases hlt : e.2.1 < b0.2.1
      · rw [if_pos hlt] at hb
        rcases ih (some e) hb with h' | h'
        · simp only [Option.some.injEq] at h'
          exact Or.inr (h' ▸ List.mem_cons_self e rest)
        · exact Or.inr (List.mem_cons_of_mem e h')
      · rw [if_neg hlt] at hb
        rcases ih (some b0) hb with h' | h'
        · exact Or.inl h'
        · exact Or.inr (List.mem_cons_of_mem e h')

theorem minByKeyFirst_mem {α : Type} {l : List (α × Nat)} {x : α × Nat}
    (h : minByKeyFirst l = some x) : x ∈ l := by
  unfold minByKeyFirst at h
  suffices hgen : ∀ (l' : List (α × Nat)) (b : Option (α × Nat)),
      l'.foldl (fun best e =>
        match best with
        | none => some e
        | some b => if e.2 < b.2 then some e else some b) b = some x →
      (b = some x ∨ x ∈ l') by
    rcases hgen l none h with h' | h'
    · exact absurd h' (by simp)
    · exact h'
  intro l'
  induction l' with
  | nil =>
    intro b hb
    exact Or.inl hb
  | cons e rest ih =>
    intro b hb
    rw [List.foldl_cons] at hb
    cases b with
    | none =>
      rcases ih (some e) hb with h' | h'
      · simp only [Option.some.injEq] at h'
        exact Or.inr (h' ▸ List.mem_cons_self e rest)
      · exact Or.inr (List.mem_cons_of_mem e h')
    | some b0 =>
      dsimp only at hb
      by_cases hlt : e.2 < b0.2
      · rw [if_pos hlt] at hb
        rcases ih (some e) hb with h' | h'
        · simp only [Option.some.injEq] at h'
          exact Or.inr (h' ▸ List.mem_cons_self e rest)
        · exact Or.inr (List.mem_cons_of_mem e h')
      · rw [if_neg hlt] at hb
        rcases ih (some b0) hb with h' | h'
        · exact Or.inl h'
        · exact Or.inr (List.mem_cons_of_mem e h')

theorem collectPE_mem {ε α : Type} :
    ∀ {l : List (Option (Except ε α))} {as : List α},
      collectPE l = some (.ok as) → ∀ a ∈ as, some (.ok a) ∈ l := by
  intro l
  induction l with
  | nil =>
    intro as h a ha
    unfold collectPE at h
    simp only [Option.some.injEq, Except.ok.injEq] at h
    rw [← h] at ha
    simp at ha
  | cons x rest ih =>
    intro as h a ha
    match x with
    | none => exact absurd h (by simp [collectPE])
    | some (.error e) =>
      unfold collectPE at h
      simp at h
    | some (.ok b) =>
      unfold collectPE at h
      cases hr : collectPE rest with
      | none => rw [hr] at h; exact absurd h (by simp)
      | some exc =>
        rw [hr] at h
        cases exc with
        | error e => simp [Except.map] at h
        | ok as' =>
          simp only [Option.map_some', Except.map, Option.some.injEq,
            Except.ok.injEq] at h
          rw [← h] at ha
          rcases List.mem_cons.mp ha with rfl | ha'
          · exact List.mem_cons_self _ _
          · exact List.mem_cons_of_mem _ (ih hr a ha')

theorem mapM_option_mem {α β : Type} (f : α → Option β) :
    ∀ (l : List α) (out : List β), l.mapM f = some out →
      ∀ b ∈ out, ∃ a ∈ l, f a = some b := by
  intro l
  induction l with
  | nil =>
    intro out h b hb
    simp only [List.mapM_nil, Option.pure_def, Option.some.injEq] at h
    rw [← h] at hb
    simp at hb
  | cons a rest ih =>
    intro out h b hb
    rw [List.mapM_cons] at h
    cases hf : f a with
    | none => rw [hf] at h; exact absurd h (by simp)
    | some b0 =>
      rw [hf] at h
      cases hr : rest.mapM f with
      | none => rw [hr] at h; exact absurd h (by simp)
      | some out' =>
        rw [hr] at h
        dsimp only [Bind.bind, Option.bind] at h
        injection h with h
        rw [← h] at hb
        rcases List.mem_cons.mp hb with rfl | hb'
        · exact ⟨a, List.mem_cons_self a rest, hf⟩
        · obtain ⟨a', ha', hfa'⟩ := ih out' hr b hb'
          exact ⟨a', List.mem_cons_of_mem a ha', hfa'⟩

theorem reconGo_spec (dps : List DPMap)
    (hInv : ∀ (j : Nat) (e : Nat × Nat × Option Nat), j + 1 < dps.length →
      e ∈ dps.getD (j + 1) [] →
      ∃ c p, e.2 = (c, some p) ∧ p ∈ (dps.getD j []).map (fun x => x.1)) :
    ∀ (k : Nat) (cur : Nat) (acc : List Nat),
      k + 1 ≤ dps.length → cur ∈ (dps.getD k []).map (fun x => x.1) →
      ∃ ps, reconGo dps ((List.range k).reverse) cur acc = acc ++ ps ∧
        ps.length = k ∧
        ∀ (j : Nat) (x : Nat), ps[j]? = some x →
          x ∈ (dps.getD (k - 1 - j) []).map (fun y => y.1) := by
  intro k
  induction k with
  | zero =>
    intro cur acc _ _
    refine ⟨[], ?_, rfl, by intro j x hx; simp at hx⟩
    simp [reconGo]
  | succ k ih =>
    intro cur acc hk hcur
    rw [List.range_succ, List.reverse_append]
    simp only [List.reverse_cons, List.reverse_nil, List.nil_append,
      List.singleton_append]
    unfold reconGo
    obtain ⟨e, he, hek, hlook⟩ := lookupDP_of_key hcur
    obtain ⟨c, p, he2, hp⟩ := hInv k e (by omega) he
    rw [hlook, he2]
    dsimp only
    obtain ⟨ps', heq, hlen, hidx⟩ := ih p (acc ++ [p]) (by omega) hp
    refine ⟨p :: ps', ?_, by simp [hlen], ?_⟩
    · rw [heq, List.append_assoc]
      rfl
    · intro j x hx
      cases j with
      | zero =>
        simp only [List.getElem?_cons_zero, Option.some.injEq] at hx
        have hidxeq : k + 1 - 1 - 0 = k := by omega
        rw [hidxeq, ← hx]
        exact hp
      | succ j' =>
        simp only [List.getElem?_cons_succ] at hx
        have hidxeq : k + 1 - 1 - (j' + 1) = k - 1 - j' := by omega
        rw [hidxeq]
        exact hidx j' x hx

theorem find_optimal_sequence_spec (g : Gym) (shuffle : Nat → DPMap → DPMap)
    (hsh : ∀ i l, List.Perm (shuffle i l) l)
    (st : Nat) (rss : List (List Nat)) (dist : Nat → Nat → Option Nat)
    (seq : List Nat)
    (h : g.find_optimal_sequence shuffle st rss dist = some (.ok seq))
    (hlen2 : 2 ≤ seq.length) :
    seq.length = rss.length ∧
    ∀ (i x : Nat), seq[i]? = some x → ∃ l, rss[i]? = some l ∧ x ∈ l := by
  unfold Gym.find_optimal_sequence at h
  by_cases hn0 : rss.length = 0
  · rw [if_pos (by simp [hn0])] at h
    simp only [Option.some.injEq, Except.ok.injEq] at h
    rw [← h] at hlen2
    simp at hlen2
  · rw [if_neg (by simp [hn0])] at h
    by_cases hn1 : rss.length = 1
    · rw [if_pos (by simp [hn1])] at h
      rw [Option.map_eq_some'] at h
      obtain ⟨s, _, hs2⟩ := h
      simp only [Except.ok.injEq] at hs2
      rw [← hs2] at hlen2
      simp at hlen2
    · rw [if_neg (by simp [hn1])] at h
      have hn2 : 2 ≤ rss.length := by omega
      by_cases hstart : st < g.states.length
      · rw [if_pos hstart] at h
        cases hdp0 : buildDP0 g.states.length dist st (rss.getD 0 []) with
        | none => rw [hdp0] at h; exact absurd h (by simp)
        | some dp0 =>
          rw [hdp0] at h
          dsimp only at h
          cases hch : dpChain g.states.length dist shuffle 1 dp0 (rss.drop 1) with
          | none => rw [hch] at h; exact absurd h (by simp)
          | some rows =>
            rw [hch] at h
            dsimp only at h
            obtain ⟨hrowslen, hrowsprops⟩ :=
              dpChain_spec g.states.length dist shuffle hsh (rss.drop 1) 1 dp0 rows hch
            have hrowslen' : rows.length = rss.length - 1 := by
              rw [hrowslen, List.length_drop]
            have hdpslen : (dp0 :: rows).length = rss.length := by
              simp [hrowslen']
              omega
            by_cases hall : ((shuffle rss.length ((dp0 :: rows).getLastD [])).all
                (fun e => e.1 < g.states.length)) = true
            · rw [if_pos hall] at h
              cases hmin : minByCost (sortByKeyStable
                  (fun e => ((g.states.getD e.1 (GymState.mk [])).plates))
                  (shuffle rss.length ((dp0 :: rows).getLastD []))) with
              | none => rw [hmin] at h; exact absurd h (by simp)
              | some fin =>
                rw [hmin] at h
                simp only [Option.some.injEq, Except.ok.injEq] at h
                -- seq is the reconstructed path
                have hfin1 : fin ∈ (dp0 :: rows).getLastD [] := by
                  have h1 := minByCost_mem hmin
                  have h2 := (sortStable_perm
                    (fun a b => ((g.states.getD a.1 (GymState.mk [])).plates)
                      ≤ ((g.states.getD b.1 (GymState.mk [])).plates))
                    (shuffle rss.length ((dp0 :: rows).getLastD []))).mem_iff.mp
                    (by exact h1)
                  exact (hsh rss.length _).mem_iff.mp h2
                have hlastD : (dp0 :: rows).getLastD []
                    = (dp0 :: rows).getD (rss.length - 1) [] := by
                  rw [List.getLastD_eq_getLast?, List.getLast?_eq_getElem?]
                  rw [List.getD_eq_getElem?_getD, hdpslen]
                have hfinkey : fin.1 ∈ (((dp0 :: rows).getD (rss.length - 1) []).map
                    (fun x => x.1)) := by
                  rw [← hlastD]
                  exact List.mem_map_of_mem _ hfin1
                have hInv : ∀ (j : Nat) (e : Nat × Nat × Option Nat),
                    j + 1 < (dp0 :: rows).length →
                    e ∈ (dp0 :: rows).getD (j + 1) [] →
                    ∃ c p, e.2 = (c, some p) ∧
                      p ∈ ((dp0 :: rows).getD j []).map (fun x => x.1) := by
                  intro j e hj he
                  rw [List.getD_cons_succ] at he
                  obtain ⟨_, c, p, he2, hp⟩ := hrowsprops j e he
                  exact ⟨c, p, he2, hp⟩
                obtain ⟨ps, hrecon, hpslen, hpsidx⟩ :=
                  reconGo_spec (dp0 :: rows) hInv (rss.length - 1) fin.1 [fin.1]
                    (by omega) hfinkey
                have hseq : seq = ps.reverse ++ [fin.1] := by
                  rw [← h]
                  unfold reconstructPath
                  rw [hrecon]
                  simp
                -- membership in keys of dps row i implies membership in rss i
                have hkeys : ∀ (i x : Nat), i < rss.length →
                    x ∈ (((dp0 :: rows).getD i []).map (fun y => y.1)) →
                    ∃ l, rss[i]? = some l ∧ x ∈ l := by
                  intro i x hi hx
                  rw [List.mem_map] at hx
                  obtain ⟨e, he, hex⟩ := hx
                  cases i with
                  | zero =>
                    rw [List.getD_cons_zero] at he
                    have := buildDP0_mem' hdp0 e he
                    refine ⟨rss.getD 0 [], ?_, hex ▸ this⟩
                    rw [List.getD_eq_getElem?_getD]
                    cases hr : rss[0]? with
                    | none =>
                      rw [List.getElem?_eq_none_iff] at hr
                      omega
                    | some l0 => rfl
                  | succ i' =>
                    rw [List.getD_cons_succ] at he
                    obtain ⟨⟨cl, hcl, hmem⟩, _⟩ := hrowsprops i' e he
                    rw [List.getElem?_drop] at hcl
                    rw [Nat.add_comm 1 i'] at hcl
                    exact ⟨cl, hcl, hex ▸ hmem⟩
                constructor
                · rw [hseq]
                  simp [hpslen]
                  omega
                · intro i x hx
                  have hilen : i < seq.length := by
                    by_contra hge
                    rw [List.getElem?_eq_none (by omega)] at hx
                    exact absurd hx (by simp)
                  have hseqlen : seq.length = rss.length := by
                    rw [hseq]
                    simp [hpslen]
                    omega
                  rw [hseq] at hx
                  by_cases hsmall : i < ps.reverse.length
                  · rw [List.getElem?_append_left hsmall] at hx
                    rw [List.getElem?_reverse (by simpa using hsmall)] at hx
                    have := hpsidx (ps.length - 1 - i) x hx
                    have hidxeq : rss.length - 1 - 1 - (ps.length - 1 - i) = i := by
                      rw [List.length_reverse] at hsmall
                      omega
                    rw [hidxeq] at this
                    exact hkeys i x (by omega) this
                  · have hieq : i = ps.length := by
                      rw [List.length_reverse] at hsmall
                      rw [hseq] at hilen
                      simp [hpslen] at hilen
                      omega
                    rw [List.getElem?_append_right (by simpa using hsmall)] at hx
                    rw [List.length_reverse] at hx
                    rw [hieq] at hx
                    simp only [Nat.sub_self, List.getElem?_cons_zero,
                      Option.some.injEq] at hx
                    refine hkeys i x (by omega) ?_
                    have hieq2 : i = rss.length - 1 := by omega
                    rw [hieq2, ← hx]
                    exact hfinkey
            · rw [if_neg hall] at h
              exact absurd h (by simp)
      · rw [if_neg hstart] at h
        exact absurd h (by simp)

theorem mapM_except_idx {α β ε : Type} (f : α → Except ε β) :
    ∀ (l : List α) (out : List β), l.mapM f = .ok out →
      out.length = l.length ∧
      ∀ (i : Nat) (a : α), l[i]? = some a → ∃ b, out[i]? = some b ∧ f a = .ok b := by
  intro l
  induction l with
  | nil =>
    intro out h
    simp only [List.mapM_nil] at h
    dsimp only [Pure.pure, Except.pure] at h
    injection h with h
    rw [← h]
    exact ⟨rfl, by intro i a ha; simp at ha⟩
  | cons a rest ih =>
    intro out h
    rw [List.mapM_cons] at h
    cases hf : f a with
    | error e =>
      rw [hf] at h
      dsimp only [Bind.bind, Except.bind] at h
      exact absurd h (by simp)
    | ok b0 =>
      rw [hf] at h
      dsimp only [Bind.bind, Except.bind] at h
      cases hr : rest.mapM f with
      | error e =>
        rw [hr] at h
        dsimp only [Bind.bind, Except.bind] at h
        exact absurd h (by simp)
      | ok out' =>
        rw [hr] at h
        dsimp only [Bind.bind, Except.bind, Pure.pure, Except.pure] at h
        injection h with h
        rw [← h]
        obtain ⟨hlen, hidx⟩ := ih out' hr
        refine ⟨by simp [hlen], ?_⟩
        intro i x hx
        cases i with
        | zero =>
          simp only [List.getElem?_cons_zero, Option.some.injEq] at hx
          exact ⟨b0, by simp, hx ▸ hf⟩
        | succ i' =>
          simp only [List.getElem?_cons_succ] at hx ⊢
          exact hidx i' x hx

theorem find_states_qual {g : Gym} {r : Requirement} {l : List Nat}
    (h : g.find_states_for_requirement r = .ok l) :
    ∀ x ∈ l, x < g.states.length ∧
      ∃ c, g.matchComplexity r (g.states.getD x (GymState.mk [])) = some c := by
  unfold Gym.find_states_for_requirement at h
  by_cases he : (g.matchingStates r).isEmpty = true
  · rw [if_pos he] at h
    exact absurd h (by simp)
  · rw [if_neg he] at h
    simp only [Except.ok.injEq] at h
    intro x hx
    rw [← h] at hx
    rw [List.mem_map] at hx
    obtain ⟨pr, hpr, hpx⟩ := hx
    have hpr' : pr ∈ g.matchingStates r := by
      have hperm := sortStable_perm
        (fun a b : Nat × Nat => decide (a.2 ≤ b.2)) (g.matchingStates r)
      exact hperm.mem_iff.mp hpr
    unfold Gym.matchingStates at hpr'
    rw [List.mem_filterMap] at hpr'
    obtain ⟨p, hp, hpc⟩ := hpr'
    rw [Option.map_eq_some'] at hpc
    obtain ⟨c, hc, hcp⟩ := hpc
    obtain ⟨hlt, hsteq⟩ := List.mem_enum hp
    have hp1 : p.1 = x := by rw [← hpx, ← hcp]
    constructor
    · rw [← hp1]; exact hlt
    · refine ⟨c, ?_⟩
      have : g.states.getD x (GymState.mk []) = p.2 := by
        rw [← hp1, List.getD_eq_getElem?_getD, List.getElem?_eq_getElem hlt]
        rw [hsteq]
        rfl
      rw [this]
      exact hc

theorem matchComplexity_some {g : Gym} {req : Requirement} {st : GymState} {c : Nat}
    (h : g.matchComplexity req st = some c) :
    ∃ bars, g.barOptionsGet req.bar_kind = some bars ∧
      ∃ bar ∈ bars, ∃ d, st.get bar = some d ∧ (d.weight == req.weight) = true := by
  unfold Gym.matchComplexity at h
  cases hbo : g.barOptionsGet req.bar_kind with
  | none =>
    rw [hbo] at h
    exact absurd h (by simp)
  | some bars =>
    rw [hbo] at h
    dsimp only [Option.bind] at h
    obtain ⟨bar, hbar, hfs⟩ := List.exists_of_findSome?_eq_some h
    cases hget : st.get bar with
    | none =>
      rw [hget] at hfs
      exact absurd hfs (by simp)
    | some d =>
      rw [hget] at hfs
      dsimp only [Option.bind] at hfs
      by_cases hw : (d.weight == req.weight) = true
      · exact ⟨bars, rfl, bar, hbar, d, hget, hw⟩
      · rw [if_neg hw] at hfs
        exact absurd hfs (by simp)

theorem assignFold_cover (st : GymState) (req : Requirement) (idx : Nat) :
    ∀ (bars : List Bar) (acc : List (Nat × Bar × Dumbbell)),
      (∃ bar ∈ bars, ∃ d, st.get bar = some d ∧ (d.weight == req.weight) = true) →
      ∃ b dd, (idx, b, dd) ∈ bars.foldl (fun a bar =>
        match st.get bar with
        | some d => if d.weight == req.weight then a ++ [(idx, bar, d)] else a
        | none => a) acc := by
  intro bars
  induction bars with
  | nil =>
    intro acc h
    obtain ⟨bar, hb, _⟩ := h
    simp at hb
  | cons bar rest ih =>
    intro acc h
    rw [List.foldl_cons]
    obtain ⟨bar', hb', d', hget', hw'⟩ := h
    rcases List.mem_cons.mp hb' with heq | hmem
    · subst heq
      rw [hget']
      dsimp only
      rw [if_pos hw']
      rw [assignFold_acc st req idx rest (acc ++ [(idx, bar', d')])]
      exact ⟨bar', d', by simp⟩
    · exact ih _ ⟨bar', hmem, d', hget', hw'⟩

theorem buildAssignGo_cover (g : Gym) (reqs : List Requirement) :
    ∀ (sids : List Nat) (idx : Nat) (acc : List (Nat × Bar × Dumbbell))
      (asgn : List (Nat × Bar × Dumbbell)),
      buildAssignGo g reqs sids idx acc = some (.ok asgn) →
      idx + sids.length = reqs.length →
      ∀ (j sid : Nat), sids[j]? = some sid →
        (∃ c, g.matchComplexity (reqs.getD (idx + j) ⟨0, .Dumbbell⟩)
            (g.states.getD sid (GymState.mk [])) = some c) →
        ∃ b d, (idx + j, b, d) ∈ asgn := by
  intro sids
  induction sids with
  | nil =>
    intro idx acc asgn _ _ j sid hj _
    simp at hj
  | cons sid0 rest ih =>
    intro idx acc asgn h hlen j sid hj hqc
    unfold buildAssignGo at h
    cases hst : g.states[sid0]? with
    | none => rw [hst] at h; exact absurd h (by simp)
    | some st =>
      rw [hst] at h
      dsimp only at h
      cases hreq : reqs[idx]? with
      | none => rw [hreq] at h; exact absurd h (by simp)
      | some req =>
        rw [hreq] at h
        dsimp only at h
        cases hbo : g.barOptionsGet req.bar_kind with
        | none => rw [hbo] at h; exact absurd h (by simp)
        | some bars =>
          rw [hbo] at h
          dsimp only at h
          simp only [List.length_cons] at hlen
          cases j with
          | zero =>
            simp only [List.getElem?_cons_zero, Option.some.injEq] at hj
            obtain ⟨c, hc⟩ := hqc
            have hreqD : reqs.getD (idx + 0) ⟨0, .Dumbbell⟩ = req := by
              rw [Nat.add_zero, List.getD_eq_getElem?_getD, hreq]
              rfl
            rw [hreqD] at hc
            have hstD : g.states.getD sid (GymState.mk []) = st := by
              rw [← hj, List.getD_eq_getElem?_getD, hst]
              rfl
            rw [hstD] at hc
            obtain ⟨bars', hbo', bar, hbar, d, hget, hw⟩ := matchComplexity_some hc
            rw [hbo] at hbo'
            injection hbo' with hbo'
            rw [← hbo'] at hbar
            obtain ⟨b, dd, hbd⟩ :=
              assignFold_cover st req idx bars acc ⟨bar, hbar, d, hget, hw⟩
            rw [buildAssignGo_acc] at h
            rw [Option.map_eq_some'] at h
            obtain ⟨x, _, hx2⟩ := h
            cases x with
            | error e => exact absurd hx2 (by simp [Except.map])
            | ok tail =>
              simp only [Except.map, Except.ok.injEq] at hx2
              refine ⟨b, dd, ?_⟩
              rw [Nat.add_zero, ← hx2]
              exact List.mem_append_left _ hbd
          | succ j' =>
            simp only [List.getElem?_cons_succ] at hj
            have hj' : j' < rest.length := by
              by_contra hge
              rw [List.getElem?_eq_none (Nat.le_of_not_lt hge)] at hj
              exact absurd hj (by simp)
            rw [if_pos (show idx < reqs.length - 1 by omega)] at h
            have hqc' : ∃ c, g.matchComplexity
                (reqs.getD ((idx + 1) + j') ⟨0, .Dumbbell⟩)
                (g.states.getD sid (GymState.mk [])) = some c := by
              have : (idx + 1) + j' = idx + (j' + 1) := by omega
              rw [this]
              exact hqc
            have hcov := ih (idx + 1) _ asgn h (by omega) j' sid hj hqc'
            have : (idx + 1) + j' = idx + (j' + 1) := by omega
            rw [this] at hcov
            exact hcov

theorem chooseSequence_spec (g : Gym) (shuffle : Nat → DPMap → DPMap)
    (hsh : ∀ i l, List.Perm (shuffle i l) l)
    (reqs : List Requirement) (seq : List Nat)
    (h : g.chooseSequence shuffle reqs = some (.ok seq)) (hne : reqs ≠ []) :
    seq.length = reqs.length ∧
    ∀ (j sid : Nat), seq[j]? = some sid →
      ∃ r, reqs[j]? = some r ∧ sid < g.states.length ∧
        ∃ c, g.matchComplexity r (g.states.getD sid (GymState.mk [])) = some c := by
  cases reqs with
  | nil => exact absurd rfl hne
  | cons r0 rest =>
    unfold Gym.chooseSequence at h
    cases hm : (r0 :: rest).mapM g.find_states_for_requirement with
    | error e => rw [hm] at h; exact absurd h (by simp)
    | ok rss =>
      rw [hm] at h
      dsimp only at h
      obtain ⟨hrsslen, hrssidx⟩ :=
        mapM_except_idx g.find_states_for_requirement (r0 :: rest) rss hm
      cases rss with
      | nil => simp at hrsslen
      | cons ss rss' =>
        dsimp only at h
        cases hcp : collectPE (ss.map (fun st =>
            g.find_optimal_sequence shuffle st (ss :: rss') g.johnson)) with
        | none => rw [hcp] at h; exact absurd h (by simp)
        | some exc =>
          rw [hcp] at h
          cases exc with
          | error e => exact absurd h (by simp)
          | ok seqs =>
            dsimp only at h
            cases hmm : seqs.mapM (fun sq =>
                match sq[0]?, sq[1]? with
                | some a, some b =>
                  some (sq, (g.find_shortest_path_between_states a b).length)
                | _, _ => none) with
            | none => rw [hmm] at h; exact absurd h (by simp)
            | some keyed =>
              rw [hmm] at h
              dsimp only at h
              cases hmin : minByKeyFirst keyed with
              | none => rw [hmin] at h; exact absurd h (by simp)
              | some best =>
                rw [hmin] at h
                simp only [Option.some.injEq, Except.ok.injEq] at h
                obtain ⟨sq, hsq, hf⟩ :=
                  mapM_option_mem _ seqs keyed hmm best (minByKeyFirst_mem hmin)
                cases h0 : sq[0]? with
                | none => rw [h0] at hf; exact absurd hf (by simp)
                | some a0 =>
                  cases h1 : sq[1]? with
                  | none => rw [h0, h1] at hf; exact absurd hf (by simp)
                  | some a1 =>
                    rw [h0, h1] at hf
                    dsimp only at hf
                    injection hf with hf
                    have hsqeq : sq = seq := by rw [← h, ← hf]
                    have hlen2 : 2 ≤ seq.length := by
                      rw [← hsqeq]
                      by_contra hge
                      rw [List.getElem?_eq_none (by omega)] at h1
                      exact absurd h1 (by simp)
                    rw [hsqeq] at hsq
                    obtain ⟨st0, _, hfos⟩ := by
                      have hmem := collectPE_mem hcp seq hsq
                      rw [List.mem_map] at hmem
                      exact hmem
                    obtain ⟨hslen, hsidx⟩ :=
                      find_optimal_sequence_spec g shuffle hsh st0 (ss :: rss')
                        g.johnson seq hfos hlen2
                    refine ⟨by rw [hslen, hrsslen], ?_⟩
                    intro j sid hj
                    obtain ⟨l, hl, hsl⟩ := hsidx j sid hj
                    have hjlt : j < (r0 :: rest).length := by
                      have : j < (ss :: rss').length := by
                        by_contra hge
                        rw [List.getElem?_eq_none (Nat.le_of_not_lt hge)] at hl
                        exact absurd hl (by simp)
                      omega
                    obtain ⟨l', hl', hfsr⟩ := hrssidx j ((r0 :: rest)[j])
                      (List.getElem?_eq_getElem hjlt)
                    rw [hl] at hl'
                    injection hl' with hl'
                    rw [← hl'] at hfsr
                    obtain ⟨hltst, c, hc⟩ := find_states_qual hfsr sid hsl
                    exact ⟨(r0 :: rest)[j], List.getElem?_eq_getElem hjlt, hltst, c, hc⟩

/-- Claim C1: on every successful call to `order` (over a gym whose
`bar_options` groups bars by their kind, as `Gym.new` builds it, and for any
hash iteration order, modelled as a permutation-producing `shuffle`), the
returned map is exactly the grouping of the per-step assignments, every
configuration assigned while serving requirement `i` has weight exactly equal
to requirement `i`'s target weight and sits on a bar whose kind equals
requirement `i`'s bar kind, and every requirement receives at least one
assigned configuration. -/
theorem order_requirement_satisfaction (g : Gym) (shuffle : Nat → DPMap → DPMap)
    (reqs : List Requirement) (res : List (Bar × List Dumbbell))
    (hwf : g.BarOptionsWF)
    (hsh : ∀ i l, List.Perm (shuffle i l) l)
    (h : g.order shuffle reqs = some (.ok res)) :
    ∃ seq asgn,
      (g.chooseSequence shuffle reqs = some (.ok seq) ∨ (reqs = [] ∧ seq = [])) ∧
      buildAssignGo g reqs seq 0 [] = some (.ok asgn) ∧
      res = applyPushes [] asgn ∧
      (∀ t ∈ asgn, ∃ r, reqs[t.1]? = some r ∧
        t.2.2.weight = r.weight ∧ t.2.1.kind = r.bar_kind) ∧
      ∀ (i : Nat) (r : Requirement), reqs[i]? = some r →
        ∃ b d, (i, b, d) ∈ asgn := by
  cases reqs with
  | nil =>
    refine ⟨[], [], Or.inr ⟨rfl, rfl⟩, rfl, ?_, by simp, by intro i r hir; simp at hir⟩
    have hres : res = [] := by
      have h' : (some (.ok []) : Option (Except GymError (List (Bar × List Dumbbell))))
          = some (.ok res) := h
      simp only [Option.some.injEq, Except.ok.injEq] at h'
      exact h'.symm
    rw [hres]
    rfl
  | cons r0 rest =>
    rw [show Gym.order g shuffle (r0 :: rest)
        = (match g.chooseSequence shuffle (r0 :: rest) with
          | none => none
          | some (.error e) => some (.error e)
          | some (.ok seq) => buildResultGo g (r0 :: rest) seq 0 []) from rfl] at h
    cases hcs : g.chooseSequence shuffle (r0 :: rest) with
    | none => rw [hcs] at h; exact absurd h (by simp)
    | some exc =>
      rw [hcs] at h
      cases exc with
      | error e => exact absurd h (by simp)
      | ok seq =>
        dsimp only at h
        rw [buildResultGo_eq g (r0 :: rest) seq 0 []] at h
        cases hba : buildAssignGo g (r0 :: rest) seq 0 [] with
        | none => rw [hba] at h; exact absurd h (by simp)
        | some exc2 =>
          rw [hba] at h
          cases exc2 with
          | error e => exact absurd h (by simp [Except.map])
          | ok asgn =>
            simp only [Option.map_some', Except.map, Option.some.injEq,
              Except.ok.injEq] at h
            obtain ⟨hslen, hsidx⟩ :=
              chooseSequence_spec g shuffle hsh (r0 :: rest) seq hcs (by simp)
            refine ⟨seq, asgn, Or.inl rfl, hba, h.symm,
              buildAssignGo_good g hwf (r0 :: rest) seq 0 [] asgn hba (by simp), ?_⟩
            intro i r hir
            have hilt : i < (r0 :: rest).length := by
              by_contra hge
              rw [List.getElem?_eq_none (Nat.le_of_not_lt hge)] at hir
              exact absurd hir (by simp)
            have hj : seq[i]? = some seq[i] :=
              List.getElem?_eq_getElem (by omega)
            obtain ⟨r', hr', _, c, hc⟩ := hsidx i seq[i] hj
            have hrr : r' = r := by
              rw [hir] at hr'
              injection hr' with hr''
              exact hr''.symm
            have hqc : ∃ c, g.matchComplexity
                ((r0 :: rest).getD (0 + i) ⟨0, .Dumbbell⟩)
                (g.states.getD seq[i] (GymState.mk [])) = some c := by
              refine ⟨c, ?_⟩
              have : (r0 :: rest).getD (0 + i) ⟨0, .Dumbbell⟩ = r := by
                rw [Nat.zero_add, List.getD_eq_getElem?_getD, hir]
                rfl
              rw [this, ← hrr]
              exact hc
            have hcov := buildAssignGo_cover g (r0 :: rest) seq 0 [] asgn hba
              (by rw [Nat.zero_add, hslen]) i seq[i] hj hqc
            rw [Nat.zero_add] at hcov
            exact hcov

/-- Witness for C1: `gym1` (well-formed bar options) under the identity
iteration order with two 2 kg dumbbell requirements succeeds, and the theorem
yields the matching, covering assignments. -/
theorem order_requirement_satisfaction_witness :
    gym1.BarOptionsWF ∧
    ∃ seq asgn,
      (gym1.chooseSequence shuffleA [⟨2000, .Dumbbell⟩, ⟨2000, .Dumbbell⟩]
          = some (.ok seq) ∨
        (([⟨2000, .Dumbbell⟩, ⟨2000, .Dumbbell⟩] : List Requirement) = [] ∧ seq = [])) ∧
      buildAssignGo gym1 [⟨2000, .Dumbbell⟩, ⟨2000, .Dumbbell⟩] seq 0 []
        = some (.ok asgn) ∧
      [(barD1, [Dumbbell.new [] barD1, Dumbbell.new [] barD1])] = applyPushes [] asgn ∧
      (∀ t ∈ asgn, ∃ r,
        ([⟨2000, .Dumbbell⟩, ⟨2000, .Dumbbell⟩] : List Requirement)[t.1]? = some r ∧
        t.2.2.weight = r.weight ∧ t.2.1.kind = r.bar_kind) ∧
      ∀ (i : Nat) (r : Requirement),
        ([⟨2000, .Dumbbell⟩, ⟨2000, .Dumbbell⟩] : List Requirement)[i]? = some r →
        ∃ b d, (i, b, d) ∈ asgn :=
  ⟨by decide,
    order_requirement_satisfaction gym1 shuffleA
      [⟨2000, .Dumbbell⟩, ⟨2000, .Dumbbell⟩]
      [(barD1, [Dumbbell.new [] barD1, Dumbbell.new [] barD1])]
      (by decide) (fun _ l => List.Perm.refl l) rfl⟩
